import Mathlib

/-!
Verification of the dependency-treebank observation extractor
(`auxiliary_functions.py`, `auxiliary_functions_w5.py`, `auxiliary_functions_hw1.py`).

The Python sources are shallowly embedded below.  Python lists become
`List`, Python `int` becomes `Int` (so that negative list indices behave
exactly as in Python, see `pyGet`), exceptions become `Except PyErr`,
and the unbounded recursion of `isClauseHead` is modelled with an
explicit fuel argument (`isClauseHeadF`): a run of the Python function
that returns a value is exactly a run of `isClauseHeadF` that returns
`.ok` for every sufficiently large fuel (`isClauseHeadF_mono`), and a
run that never returns is one that yields `.error .outOfFuel` for every
fuel.
-/

namespace JFL

/-- Python exception kinds that the embedded code can raise.
`outOfFuel` marks a recursion that does not terminate within the given
fuel (the corresponding Python run performs at least that many nested
calls). -/
inductive PyErr where
  | indexError
  | nameError
  | typeError
  | valueError
  | outOfFuel
deriving DecidableEq, Repr

instance {ε α : Type} [DecidableEq ε] [DecidableEq α] : DecidableEq (Except ε α) :=
  fun x y =>
    match x, y with
    | .ok a, .ok b =>
      if h : a = b then .isTrue (by rw [h]) else
        .isFalse (by intro hc; cases hc; exact h rfl)
    | .error a, .error b =>
      if h : a = b then .isTrue (by rw [h]) else
        .isFalse (by intro hc; cases hc; exact h rfl)
    | .ok _, .error _ => .isFalse (by intro hc; cases hc)
    | .error _, .ok _ => .isFalse (by intro hc; cases hc)

/-- The `Token` dataclass shared by all three source files.  `index` and
`head` are `Int` after the `__post_init__` coercion; the optional
metadata fields default to `None`. The `lemma` field is renamed
`lemma_` because `lemma` is a Lean keyword. -/
structure Token where
  sent_id : String
  index : Int
  form : String
  lemma_ : String
  upos : String
  xpos : String
  feats : String
  head : Int
  deprel : String
  deps : String
  misc : String
  text : String
  translation : Option String := none
  translation_en : Option String := none
  title : Option String := none
deriving DecidableEq, Repr

/-- Python list subscription `xs[i]`: a non-negative index is used
directly, a negative index `i` with `-len ≤ i` selects `xs[len + i]`,
anything else raises `IndexError` (modelled as `none`). -/
def pyGet {α : Type} (xs : List α) (i : Int) : Option α :=
  if 0 ≤ i then xs.get? i.toNat
  else if 0 ≤ (xs.length : Int) + i then xs.get? ((xs.length : Int) + i).toNat
  else none

/-- The canonical clause-head relation set of `createObservation`. -/
def clauseHeadRels : List String :=
  ["root", "advcl", "acl", "csubj", "ccomp", "xcomp"]

/-- The propagation relations `{conj, parataxis}`. -/
def propagateRels : List String := ["conj", "parataxis"]

/-- Fuel-indexed embedding of `isClauseHead(tokens, currentToken,
clauseHeads)` from `auxiliary_functions.py`.  Each Python call consumes
one unit of fuel; the access `tokens[currentToken]` follows Python
index semantics (`pyGet`), the recursive call passes the sentence
filtered by `sent_id` and the position `token.head - 1`. -/
def isClauseHeadF : Nat → List Token → Int → List String → Except PyErr Bool
  | 0, _, _, _ => .error .outOfFuel
  | fuel + 1, tokens, currentToken, clauseHeads =>
    match pyGet tokens currentToken with
    | none => .error .indexError
    | some t =>
      if t.deprel ∈ clauseHeads then .ok true
      else if t.deprel = "conj" ∨ t.deprel = "parataxis" then
        isClauseHeadF fuel (tokens.filter (fun u => u.sent_id == t.sent_id))
          (t.head - 1) clauseHeads
      else .ok false

/-- `isClauseHead` with enough fuel for every terminating run on its
input (one more than the number of tokens: a run that makes more nested
calls than there are list positions revisits a position and therefore
never returns, see `isClauseHeadF_mono`). -/
def isClauseHead (tokens : List Token) (currentToken : Int)
    (clauseHeads : List String) : Except PyErr Bool :=
  isClauseHeadF (tokens.length + 1) tokens currentToken clauseHeads

/-- Bounded head-chasing: `reachesRoot ts fuel p` holds when following
`head` pointers from position `p` (token indices are 1-based, so the
governor of a token with head `h ≥ 1` sits at position `h - 1`),
treating head `0` as termination, reaches termination within `fuel`
hops, all heads along the way indexing tokens of the sentence. -/
def reachesRoot (ts : List Token) : Nat → Nat → Bool
  | 0, _ => false
  | fuel + 1, p =>
    match ts.get? p with
    | none => false
    | some t =>
      t.head == 0 ||
        (decide (1 ≤ t.head) && decide (t.head ≤ (ts.length : Int)) &&
          reachesRoot ts fuel (t.head - 1).toNat)

/-- Decidable form of the §3 sentence invariant: tokens are listed in
linear order with 1-based indices, every head chain terminates within
`N` hops (`N` = sentence length), and all tokens share one `sent_id`. -/
def wellFormedSentenceB (ts : List Token) : Bool :=
  ((List.range ts.length).all fun p =>
      match ts.get? p with
      | some t => t.index == (p : Int) + 1
      | none => false) &&
  ((List.range ts.length).all fun p => reachesRoot ts ts.length p) &&
  (ts.all fun t => ts.all fun u => t.sent_id == u.sent_id)

abbrev wellFormedSentence (ts : List Token) : Prop := wellFormedSentenceB ts = true

theorem wfs_index {ts : List Token} (h : wellFormedSentence ts) :
    ∀ p t, ts.get? p = some t → t.index = (p : Int) + 1 := by
  intro p t hget
  have hp : p < ts.length := List.get?_eq_some.mp hget |>.1
  have h1 := (Bool.and_eq_true ..).mp ((Bool.and_eq_true ..).mp h).1 |>.1
  have := List.all_eq_true.mp h1 p (List.mem_range.mpr hp)
  rw [hget] at this
  exact_mod_cast beq_iff_eq.mp this

theorem wfs_reach {ts : List Token} (h : wellFormedSentence ts) :
    ∀ p, p < ts.length → reachesRoot ts ts.length p = true := by
  intro p hp
  have h2 := (Bool.and_eq_true ..).mp ((Bool.and_eq_true ..).mp h).1 |>.2
  exact List.all_eq_true.mp h2 p (List.mem_range.mpr hp)

theorem wfs_sid {ts : List Token} (h : wellFormedSentence ts) :
    ∀ t ∈ ts, ∀ u ∈ ts, t.sent_id = u.sent_id := by
  intro t ht u hu
  have h3 := ((Bool.and_eq_true ..).mp h).2
  exact beq_iff_eq.mp (List.all_eq_true.mp (List.all_eq_true.mp h3 t ht) u hu)

/-! ## The whole-sentence fixed-point filter (`filterClauseHeads`, w5) -/

/-- The set of token `index` values of a sentence (the values the keep
set can ever contain). -/
def idxSet (g : List Token) : Finset Int := (g.map Token.index).toFinset

/-- One pass of the `while True` body of `per_sentence` inside
`filterClauseHeads`: add the `index` of every token whose `deprel` is a
propagation relation and whose `head` is already kept. -/
def stepKeep (g : List Token) (propagate_rels : List String)
    (keep : Finset Int) : Finset Int :=
  keep ∪
    ((g.filter fun t =>
        decide (t.deprel ∈ propagate_rels) && decide (t.head ∈ keep)).map
      Token.index).toFinset

/-- The `while True` loop of `per_sentence`: repeat `stepKeep` until the
size of the keep set does not change.  The loop of the source is
unbounded but monotone over a finite set; `fuel` is the explicit bound,
and `propagateKeep_spec` shows that the fuel used by `per_sentence`
never runs out before the fixed point is reached. -/
def propagateKeep (g : List Token) (propagate_rels : List String) :
    Nat → Finset Int → Finset Int
  | 0, keep => keep
  | fuel + 1, keep =>
    let keep2 := stepKeep g propagate_rels keep
    if keep2.card = keep.card then keep
    else propagateKeep g propagate_rels fuel keep2

/-- The initial keep set of `per_sentence`:
`set(g.loc[g["deprel"].isin(clauseHeads), "index"]) - {0}`. -/
def keepInit (g : List Token) (clauseHeads : List String) : Finset Int :=
  (((g.filter fun t => decide (t.deprel ∈ clauseHeads)).map Token.index).toFinset).erase 0

/-- The keep set at the end of the `while True` loop of
`per_sentence`. -/
def clauseHeadKeep (g : List Token) (clauseHeads propagate_rels : List String) :
    Finset Int :=
  propagateKeep g propagate_rels (g.length + 1) (keepInit g clauseHeads)

/-- The per-sentence body of `filterClauseHeads`
(`auxiliary_functions_w5.py`): compute the fixed point of the
propagation step starting from the clause-head rows, then keep the rows
whose `deprel` is a clause-head relation or whose `index` is in the
fixed point.  (`dropna` is the identity here: `index` is an `Int`
column.) -/
def per_sentence (clauseHeads propagate_rels : List String)
    (g : List Token) : List Token :=
  g.filter fun t =>
    decide (t.deprel ∈ clauseHeads) ||
      decide (t.index ∈ clauseHeadKeep g clauseHeads propagate_rels)

/-- First-appearance-ordered list of distinct keys, matching
`groupby(..., sort=False)` group order. -/
def uniqueKeysAux (seen : List String) : List String → List String
  | [] => []
  | s :: rest =>
    if s ∈ seen then uniqueKeysAux seen rest
    else s :: uniqueKeysAux (seen ++ [s]) rest

def uniqueKeys (l : List String) : List String := uniqueKeysAux [] l

/-- `filterClauseHeads(tokensDf, clauseHeads, propagate_rels)`: group by
`sent_id` (first-appearance order, as with `sort=False`), apply
`per_sentence` to every group and concatenate. -/
def filterClauseHeads (tokensDf : List Token)
    (clauseHeads propagate_rels : List String) : List Token :=
  (uniqueKeys (tokensDf.map Token.sent_id)).flatMap fun sid =>
    per_sentence clauseHeads propagate_rels
      (tokensDf.filter fun t => t.sent_id == sid)

/-! ## Subject resolver (`findDependents`, `findSubjectValues`, w5) -/

/-- `sentenceLookup.get(sent_id, pd.DataFrame())`: dictionary lookup
with an empty default. -/
def lookupSent (sentenceLookup : List (String × List Token)) (sid : String) :
    List Token :=
  match sentenceLookup.find? (fun kv => kv.1 == sid) with
  | some kv => kv.2
  | none => []

/-- `findDependents(observation, sentenceLookup, dep)`: the `index`
values of the tokens of the observation's sentence whose `head` equals
the observation's `index` and whose `deprel` equals `dep`, in row
order. -/
def findDependents (observation : Token)
    (sentenceLookup : List (String × List Token)) (dep : String) : List Int :=
  ((lookupSent sentenceLookup observation.sent_id).filter fun t =>
      t.head == observation.index && t.deprel == dep).map Token.index

/-- `findSubjectValues(observation, sentenceLookup)`.  The source sets
`subjectType = 'nominal'` when `len(nsubjList) == 1` and then
overwrites it with `'clausal'` when `len(csubjList) == 1`; the net
value is the conditional below.  The anomaly `print` for more than one
subject does not affect the returned value.  When the subject type is
nominal and the subject's index equals the observation's index, the
source returns from none of its branches, i.e. Python returns `None`
(modelled as `none`); the `[]` case of the match is unreachable because
`nsubjList` has length 1 there. -/
def findSubjectValues (observation : Token)
    (sentenceLookup : List (String × List Token)) : Option (String × String) :=
  let nsubjList := findDependents observation sentenceLookup "nsubj"
  let csubjList := findDependents observation sentenceLookup "csubj"
  let subjectType : Option String :=
    if csubjList.length = 1 then some "clausal"
    else if nsubjList.length = 1 then some "nominal"
    else none
  if subjectType = some "nominal" then
    match nsubjList with
    | subjectIndex :: _ =>
      if subjectIndex < observation.index then some ("nominal", "pre-verbal")
      else if observation.index < subjectIndex then some ("nominal", "post-verbal")
      else none
    | [] => none
  else if subjectType = some "clausal" then some ("clausal", "null")
  else some ("null", "null")

/-! ## Subtree extractor (`print_clause`, hw1)

`print_clause` retrieves and prints metadata, cleans the frame (an
identity on the typed `Token` model, whose `index` and `head` columns
are already integers), builds the children adjacency
`head -> [dependent indices]` in row order, checks that the start index
occurs among the sentence's indices, and runs a breadth-first traversal
collecting `subtree_indices`.  Only the traversal decides claim C3; the
printing and the sentence-id fallback lookup are outside the model. -/

/-- The children adjacency of step 3 of `print_clause`: the `index`
values of the rows whose `head` equals `h`, in row order (an absent key
behaves as the empty list, matching the `if curr in children` guard). -/
def childrenOf (s : List Token) (h : Int) : List Int :=
  (s.filter fun t => t.head == h).map Token.index

/-- The body of the `for child in children[curr]` loop: add unseen
children to the visited set and append them to the queue. -/
def bfsFold (s : List Token) (curr : Int) (vq : Finset Int × List Int) :
    Finset Int × List Int :=
  (childrenOf s curr).foldl
    (fun vq c => if c ∈ vq.1 then vq else (insert c vq.1, vq.2 ++ [c])) vq

/-- The `while queue` loop of `print_clause`, with explicit fuel.  The
Python loop is unbounded; `subtreeIndices_total` shows the fuel below
never runs out (each index is enqueued at most once), so `none` from
fuel exhaustion is unreachable from `subtreeIndices`. -/
def bfsAux (s : List Token) : Nat → Finset Int → List Int → Option (Finset Int)
  | 0, _, _ => none
  | _ + 1, visited, [] => some visited
  | fuel + 1, visited, curr :: rest =>
    let vq := bfsFold s curr (visited, rest)
    bfsAux s fuel vq.1 vq.2

/-- Steps 2-4 of `print_clause`: `none` when `start_node` does not occur
among the sentence's token indices (the early-return error path),
otherwise the set `subtree_indices` computed by the breadth-first
traversal from `start_node`. -/
def subtreeIndices (s : List Token) (startIndex : Int) : Option (Finset Int) :=
  if startIndex ∈ s.map Token.index then
    bfsAux s (s.length + 2) {startIndex} [startIndex]
  else none

/-- Reachability via zero or more reverse head-pointer (dependent)
edges: the least set containing `startIndex` and closed under adding
the index of any token whose head is already in the set. -/
inductive Reaches (s : List Token) (startIndex : Int) : Int → Prop
  | refl : Reaches s startIndex startIndex
  | step {x : Int} {t : Token} : Reaches s startIndex x → t ∈ s → t.head = x →
      Reaches s startIndex t.index

/-! ## Parser (`buildTokenList`, identical in `auxiliary_functions.py`
and `auxiliary_functions_hw1.py`)

The Python string operations used by the parser are embedded
character-exactly below: `str.startswith`, `str.split('=')` taking
element 1, `str.strip`, `re.match(r'\d+', line)` (a prefix match, i.e.
the first character is a digit), `re.split(r'\t+', line)` (split on
runs of tabs), and `int(...)` (optional sign, then digits). -/

/-- `line.startswith(pre)`. -/
def pyStartswith (line pre : String) : Bool := pre.toList.isPrefixOf line.toList

/-- `s.split(c)` for a single-character separator: every occurrence
splits, empty pieces are kept. -/
def splitOnChar (c : Char) (s : String) : List String :=
  go s.toList []
where
  go : List Char → List Char → List String
    | [], acc => [String.mk acc.reverse]
    | d :: rest, acc =>
      if d = c then String.mk acc.reverse :: go rest []
      else go rest (d :: acc)

/-- `s.strip()`: remove whitespace from both ends. -/
def pyStrip (s : String) : String :=
  String.mk (((s.toList.dropWhile Char.isWhitespace).reverse.dropWhile
    Char.isWhitespace).reverse)

/-- `line.split('=')[1].strip()`, the value extraction applied to every
recognized metadata comment (the guard guarantees an `=` is present, so
position 1 exists and the default is unreachable). -/
def metaValue (line : String) : String :=
  pyStrip ((splitOnChar '=' line).getD 1 "")

/-- `re.match(r'\d+', line)` used as a truth test: the line starts with
a digit. -/
def digitStart (line : String) : Bool :=
  match line.toList with
  | [] => false
  | c :: _ => c.isDigit

/-- `re.split(r'\t+', line)`: pieces between maximal runs of tabs (a
leading or trailing run contributes an empty piece, interior runs
collapse).  `skipping` records that the previous character belonged to
a tab run, so further tabs extend the run instead of emitting pieces. -/
def splitTabRuns (s : String) : List String :=
  go false s.toList []
where
  go : Bool → List Char → List Char → List String
    | _, [], acc => [String.mk acc.reverse]
    | skipping, d :: rest, acc =>
      if d = '\t' then
        if skipping then go true rest acc
        else String.mk acc.reverse :: go true rest []
      else go false rest (d :: acc)

/-- `int(s)` on a string: optional whitespace already stripped by the
callers' data shape; accepts an optional sign followed by one or more
digits (so `int("1-2")` and `int("1.1")` raise `ValueError`, i.e.
`none`). -/
def pyInt (s : String) : Option Int :=
  match (pyStrip s).toList with
  | '-' :: ds => if ds ≠ [] ∧ ds.all Char.isDigit then some (-(digitsVal ds)) else none
  | '+' :: ds => if ds ≠ [] ∧ ds.all Char.isDigit then some (digitsVal ds) else none
  | ds => if ds ≠ [] ∧ ds.all Char.isDigit then some (digitsVal ds) else none
where
  digitsVal (ds : List Char) : Int :=
    ds.foldl (fun acc d => acc * 10 + ((d.toNat : Int) - 48)) 0

/-- The `currentToken` dictionary of `buildTokenList`: each key is
present or absent.  It is created (emptying all keys) only by a
`# text =` line. -/
structure BuildCtx where
  text : Option String := none
  translation : Option String := none
  translation_en : Option String := none
  title : Option String := none
  sent_id : Option String := none
  index : Option String := none
  form : Option String := none
  lemma_ : Option String := none
  upos : Option String := none
  xpos : Option String := none
  feats : Option String := none
  head : Option String := none
  deprel : Option String := none
  deps : Option String := none
  misc : Option String := none
deriving DecidableEq, Repr

/-- `annotation_keys` of the source. -/
def annotation_keys : List String :=
  ["index", "form", "lemma", "upos", "xpos", "feats", "head", "deprel", "deps", "misc"]

/-- One `currentToken[key] = value` assignment for an annotation key
(`dict.update` applies these left to right). -/
def setKey (ctx : BuildCtx) (kv : String × String) : BuildCtx :=
  match kv.1 with
  | "index" => { ctx with index := some kv.2 }
  | "form" => { ctx with form := some kv.2 }
  | "lemma" => { ctx with lemma_ := some kv.2 }
  | "upos" => { ctx with upos := some kv.2 }
  | "xpos" => { ctx with xpos := some kv.2 }
  | "feats" => { ctx with feats := some kv.2 }
  | "head" => { ctx with head := some kv.2 }
  | "deprel" => { ctx with deprel := some kv.2 }
  | "deps" => { ctx with deps := some kv.2 }
  | "misc" => { ctx with misc := some kv.2 }
  | _ => ctx

/-- `Token(**currentToken)`: raises `TypeError` when a required field
is missing, then `__post_init__` coerces `index` and `head` with
`int(...)`, raising `ValueError` on failure. -/
def mkToken (ctx : BuildCtx) : Except PyErr Token :=
  match ctx.sent_id, ctx.index, ctx.form, ctx.lemma_, ctx.upos, ctx.xpos,
      ctx.feats, ctx.head, ctx.deprel, ctx.deps, ctx.misc, ctx.text with
  | some sid, some idx, some fo, some le, some up, some xp, some fe, some hd,
      some dr, some dp, some mi, some tx =>
    match pyInt idx, pyInt hd with
    | some i, some h =>
      .ok ⟨sid, i, fo, le, up, xp, fe, h, dr, dp, mi, tx,
        ctx.translation, ctx.translation_en, ctx.title⟩
    | _, _ => .error .valueError
  | _, _, _, _, _, _, _, _, _, _, _, _ => .error .typeError

/-- One iteration of the `for line in myFile` loop.  The state is
`none` before the first `# text =` line (touching `currentToken` then
raises `NameError`).  Returns the new state and the token emitted by an
annotation line, if any. -/
def buildStep (st : Option BuildCtx) (line : String) :
    Except PyErr (Option BuildCtx × Option Token) :=
  if pyStartswith line "# text =" then
    .ok (some { text := some (metaValue line) }, none)
  else if pyStartswith line "# translation =" then
    match st with
    | none => .error .nameError
    | some ctx => .ok (some { ctx with translation := some (metaValue line) }, none)
  else if pyStartswith line "# translation_en =" then
    match st with
    | none => .error .nameError
    | some ctx => .ok (some { ctx with translation_en := some (metaValue line) }, none)
  else if pyStartswith line "# newdoc id =" then
    match st with
    | none => .error .nameError
    | some ctx => .ok (some { ctx with title := some (metaValue line) }, none)
  else if pyStartswith line "# sent_id =" then
    match st with
    | none => .error .nameError
    | some ctx => .ok (some { ctx with sent_id := some (metaValue line) }, none)
  else if digitStart line then
    match st with
    | none => .error .nameError
    | some ctx =>
      let ctx2 := (annotation_keys.zip (splitTabRuns line)).foldl setKey ctx
      match mkToken ctx2 with
      | .ok t => .ok (some ctx2, some t)
      | .error e => .error e
  else .ok (st, none)

/-- The loop of `buildTokenList`, threading the dictionary state and
accumulating emitted tokens in reverse. -/
def buildGo (st : Option BuildCtx) (acc : List Token) :
    List String → Except PyErr (Option BuildCtx × List Token)
  | [] => .ok (st, acc)
  | line :: rest =>
    match buildStep st line with
    | .error e => .error e
    | .ok (st2, none) => buildGo st2 acc rest
    | .ok (st2, some t) => buildGo st2 (t :: acc) rest

/-- `buildTokenList(myFile)`: the emitted tokens in file order, or the
exception that escaped the loop. -/
def buildTokenList (myFile : List String) : Except PyErr (List Token) :=
  match buildGo none [] myFile with
  | .ok p => .ok p.2.reverse
  | .error e => .error e

/-! ## Batch processing (`process`, both variants)

A file of the batch is `none` when opening it raises an I/O fault, and
`some lines` otherwise.  Both `process` functions take
`createObservation` as a parameter, exactly as in the source. -/

abbrev PyFile := Option (List String)

/-- The `for currentToken in range(len(tokens))` loop of the basic
`process` (`auxiliary_functions.py`).  It appends observations as it
goes; an exception escaping `createObservation` aborts the loop but the
appends already made survive, because `observations` is the outer
accumulator. -/
def obsLoop {α : Type} (createObservation : List Token → Nat → Except PyErr (Option α))
    (tokens : List Token) : List Nat → List α → List α
  | [], acc => acc
  | i :: rest, acc =>
    match createObservation tokens i with
    | .error _ => acc
    | .ok none => obsLoop createObservation tokens rest acc
    | .ok (some o) => obsLoop createObservation tokens rest (acc ++ [o])

/-- One file of the basic `process`: any exception (I/O fault on open,
parse fault in `buildTokenList`, or a fault inside the token loop) is
caught and logged, and processing continues with the accumulator as it
stands. -/
def processOneFile {α : Type}
    (createObservation : List Token → Nat → Except PyErr (Option α))
    (acc : List α) (f : PyFile) : List α :=
  match f with
  | none => acc
  | some lines =>
    match buildTokenList lines with
    | .error _ => acc
    | .ok tokens => obsLoop createObservation tokens (List.range tokens.length) acc

/-- `process(fileList, createObservation)` from `auxiliary_functions.py`. -/
def process {α : Type} (fileList : List PyFile)
    (createObservation : List Token → Nat → Except PyErr (Option α)) : List α :=
  fileList.foldl (processOneFile createObservation) []

/-- One file of the w5 `process`: the whole observation frame for a
file is computed inside the `try`, and `pd.concat` re-binds
`observations` only when no exception was raised, so a failing file
contributes nothing. -/
def processW5OneFile {α : Type}
    (createObservation : List Token → Except PyErr (List α))
    (acc : List α) (f : PyFile) : List α :=
  match f with
  | none => acc
  | some lines =>
    match buildTokenList lines with
    | .error _ => acc
    | .ok tokens =>
      match createObservation tokens with
      | .error _ => acc
      | .ok newObs => acc ++ newObs

/-- `process(fileList, createObservation)` from
`auxiliary_functions_w5.py`. -/
def processW5 {α : Type} (fileList : List PyFile)
    (createObservation : List Token → Except PyErr (List α)) : List α :=
  fileList.foldl (processW5OneFile createObservation) []

/-! ## Basic lemmas about the classifier embedding -/

/-- A token whose non-structural fields are fixed fillers, used for the
concrete sentences of the theorems below. -/
def mkTok (sid : String) (idx : Int) (dep : String) (hd : Int) : Token :=
  ⟨sid, idx, "f", "l", "u", "x", "ft", hd, dep, "d", "m", "tx", none, none, none⟩

theorem pyGet_natCast {α : Type} (xs : List α) (n : Nat) :
    pyGet xs (n : Int) = xs.get? n := by
  unfold pyGet
  rw [if_pos (Int.natCast_nonneg n)]
  simp

/-- Fuel monotonicity: a run of the Python `isClauseHead` that returns
a value is reproduced by every at-least-as-large fuel. -/
theorem isClauseHeadF_mono :
    ∀ f g (tokens : List Token) (i : Int) (cH : List String) (b : Bool),
      f ≤ g → isClauseHeadF f tokens i cH = .ok b →
      isClauseHeadF g tokens i cH = .ok b := by
  intro f
  induction f with
  | zero => intro g tokens i cH b _ h; simp [isClauseHeadF] at h
  | succ f ih =>
    intro g tokens i cH b hle h
    obtain ⟨g, rfl⟩ : ∃ g', g = g' + 1 :=
      ⟨g - 1, by omega⟩
    simp only [isClauseHeadF] at h ⊢
    cases hpy : pyGet tokens i with
    | none => rw [hpy] at h; simp at h
    | some t =>
      rw [hpy] at h
      dsimp only at h ⊢
      by_cases h1 : t.deprel ∈ cH
      · rwa [if_pos h1] at h ⊢
      · rw [if_neg h1] at h ⊢
        by_cases h2 : t.deprel = "conj" ∨ t.deprel = "parataxis"
        · rw [if_pos h2] at h ⊢
          exact ih g _ _ _ _ (by omega) h
        · rwa [if_neg h2] at h ⊢

/-- All tokens of a single-sentence list survive the `sent_id`
filter of the recursive call. -/
theorem filter_sid_eq_self {ts : List Token}
    (hsid : ∀ t ∈ ts, ∀ u ∈ ts, t.sent_id = u.sent_id) {t : Token} (ht : t ∈ ts) :
    (ts.filter fun u => u.sent_id == t.sent_id) = ts := by
  apply List.filter_eq_self.mpr
  intro u hu
  exact beq_iff_eq.mpr (hsid u hu t ht)

/-! ## Claim C5 -/

/-- C5: whenever `findDependents` yields exactly one `csubj` dependent
for the observation, `findSubjectValues` returns
`(subjectType, subjectPosition) = ("clausal", "null")`, whatever the
`nsubj` dependents look like — the clausal check overwrites the nominal
one, so csubj takes precedence over nsubj. -/
theorem c5_csubj_precedence (observation : Token)
    (sentenceLookup : List (String × List Token))
    (h : (findDependents observation sentenceLookup "csubj").length = 1) :
    findSubjectValues observation sentenceLookup = some ("clausal", "null") := by
  simp [findSubjectValues, h]

/-- Witness for C5 at the Scenario E sentence: the clause head at index
2 has both one `nsubj` (index 1) and one `csubj` (index 3) dependent,
and the result is `("clausal", "null")`. -/
theorem c5_csubj_precedence_witness :
    (findDependents (mkTok "s1" 2 "root" 0)
        [("s1", [mkTok "s1" 1 "nsubj" 2, mkTok "s1" 2 "root" 0,
          mkTok "s1" 3 "csubj" 2])] "csubj").length = 1 ∧
    findSubjectValues (mkTok "s1" 2 "root" 0)
        [("s1", [mkTok "s1" 1 "nsubj" 2, mkTok "s1" 2 "root" 0,
          mkTok "s1" 3 "csubj" 2])] = some ("clausal", "null") :=
  ⟨by decide, c5_csubj_precedence _ _ (by decide)⟩

/-! ## Claim C2 -/

/-- C2 fails on the code: for a `conj` token with `head = 0` — a head
value that indexes no token of the sentence — `isClauseHead` does not
fail with a lookup fault.  `head - 1 = -1` is a valid Python index for
the *last* token of the sentence (here the `root` token), so the call
silently returns the boolean classification `True`. -/
theorem c2_head_zero_silently_classified :
    isClauseHead [mkTok "s" 1 "conj" 0, mkTok "s" 2 "root" 0] 0 clauseHeadRels =
      .ok true := by decide

/-! ## Claim C7 -/

/-- C7 fails on the code: a malformed 7-field annotation line is *not*
skipped.  It passes the `re.match(r'\d+', line)` test, its seven values
overwrite the first seven keys of the still-live `currentToken`
dictionary, the `deprel`, `deps` and `misc` values of the *previous*
annotation line remain, and a `Token` is appended for the malformed
line (first conjunct: the 7-field line yields the bogus second token
with the stale `deprel = "root"`).  A multiword-range line such as
`1-2 ...` also enters the annotation branch and raises `ValueError`
from `int("1-2")` instead of being skipped (second conjunct). -/
theorem c7_malformed_lines_not_skipped :
    buildTokenList ["# text = X", "# sent_id = s1",
        "1\tA\tla\tN\tn\tF\t0\troot\t_\t_", "2\tB\tlb\tV\tv\tG\t1"] =
      .ok [⟨"s1", 1, "A", "la", "N", "n", "F", 0, "root", "_", "_", "X",
            none, none, none⟩,
          ⟨"s1", 2, "B", "lb", "V", "v", "G", 1, "root", "_", "_", "X",
            none, none, none⟩] ∧
    buildTokenList ["# text = X", "# sent_id = s1",
        "1-2\tAB\tl\tu\tx\tf\t0\tdep\t_\t_"] = .error .valueError := by
  constructor <;> decide

/-! ## Claim C4 -/

theorem c4_loop (f : Nat) :
    isClauseHeadF f [mkTok "s" 1 "conj" 0] (-1) clauseHeadRels =
      .error .outOfFuel := by
  induction f with
  | zero => rfl
  | succ f ih =>
    have hstep : isClauseHeadF (f + 1) [mkTok "s" 1 "conj" 0] (-1) clauseHeadRels =
        isClauseHeadF f [mkTok "s" 1 "conj" 0] (-1) clauseHeadRels := rfl
    rw [hstep, ih]

/-- C4 fails on the code: the one-token sentence `(1, conj, head = 0)`
satisfies the acyclic-head invariant (its head pointer is `0`, i.e.
immediate termination), yet `isClauseHead` does not terminate on it
with depth bounded by the sentence length — it does not terminate at
all.  `head - 1 = -1` re-selects the token itself through Python
negative indexing, so every fuel is exhausted. -/
theorem c4_diverges_despite_invariant :
    wellFormedSentence [mkTok "s" 1 "conj" 0] ∧
    ∀ fuel, isClauseHeadF fuel [mkTok "s" 1 "conj" 0] 0 clauseHeadRels =
      .error .outOfFuel := by
  refine ⟨by decide, ?_⟩
  intro fuel
  cases fuel with
  | zero => rfl
  | succ f =>
    have hstep : isClauseHeadF (f + 1) [mkTok "s" 1 "conj" 0] 0 clauseHeadRels =
        isClauseHeadF f [mkTok "s" 1 "conj" 0] (-1) clauseHeadRels := rfl
    rw [hstep, c4_loop f]

/-! ## Claim C10 -/

theorem c10_loop (f : Nat) :
    isClauseHeadF f [mkTok "s" 1 "conj" 1] 0 clauseHeadRels =
      .error .outOfFuel := by
  induction f with
  | zero => rfl
  | succ f ih =>
    have hstep : isClauseHeadF (f + 1) [mkTok "s" 1 "conj" 1] 0 clauseHeadRels =
        isClauseHeadF f [mkTok "s" 1 "conj" 1] 0 clauseHeadRels := rfl
    rw [hstep, ih]

/-- C10 fails on the code for the classifier half: on the head-cycle
sentence `(1, conj, head = 1)` the per-token classifier recurses from
the token back to itself forever — it neither returns nor fails through
any fail-safe of its own (every fuel bound is exhausted; the
`RecursionError` CPython eventually raises comes from the interpreter's
stack limit, not from the code).  The subtree extraction, by contrast,
does terminate on the same cyclic sentence (second conjunct), because
its visited-set guard enqueues each index at most once. -/
theorem c10_classifier_loops_on_cycle :
    (∀ fuel, isClauseHeadF fuel [mkTok "s" 1 "conj" 1] 0 clauseHeadRels =
      .error .outOfFuel) ∧
    subtreeIndices [mkTok "s" 1 "conj" 1] 1 = some {1} :=
  ⟨c10_loop, by decide⟩

/-! ## Claim C8 -/

/-- A file whose processing raises before any observation is built:
opening it raises an I/O fault (`none`), or `buildTokenList` raises a
parse fault on its lines. -/
def openOrParseFault (f : PyFile) : Bool :=
  match f with
  | none => true
  | some lines =>
    match buildTokenList lines with
    | .error _ => true
    | .ok _ => false

theorem processOneFile_fault {α : Type}
    (cO : List Token → Nat → Except PyErr (Option α)) (acc : List α)
    (f : PyFile) (hf : openOrParseFault f = true) :
    processOneFile cO acc f = acc := by
  cases f with
  | none => rfl
  | some lines =>
    unfold openOrParseFault at hf
    unfold processOneFile
    dsimp only at hf ⊢
    cases hb : buildTokenList lines with
    | error e => simp [hb]
    | ok toks => rw [hb] at hf; simp at hf

theorem processW5OneFile_fault {α : Type}
    (cW : List Token → Except PyErr (List α)) (acc : List α)
    (f : PyFile) (hf : openOrParseFault f = true) :
    processW5OneFile cW acc f = acc := by
  cases f with
  | none => rfl
  | some lines =>
    unfold openOrParseFault at hf
    unfold processW5OneFile
    dsimp only at hf ⊢
    cases hb : buildTokenList lines with
    | error e => simp [hb]
    | ok toks => rw [hb] at hf; simp at hf

/-- C8: for both `process` variants, a file on which processing raises
an exception before any observation is built — an I/O fault on open or
a parse fault in `buildTokenList` — is caught, contributes nothing, and
the batch continues: the output over the whole file list equals the
output over the same list with the failing file removed, whatever the
`createObservation` parameter does. -/
theorem c8_failed_file_isolated {α β : Type}
    (cO : List Token → Nat → Except PyErr (Option α))
    (cW : List Token → Except PyErr (List β))
    (pre post : List PyFile) (f : PyFile)
    (hf : openOrParseFault f = true) :
    process (pre ++ f :: post) cO = process (pre ++ post) cO ∧
    processW5 (pre ++ f :: post) cW = processW5 (pre ++ post) cW := by
  have hsplit : pre ++ f :: post = (pre ++ [f]) ++ post := by simp
  constructor
  · unfold process
    rw [hsplit, List.foldl_append, List.foldl_append, List.foldl_append,
      List.foldl_cons, List.foldl_nil, processOneFile_fault cO _ f hf]
  · unfold processW5
    rw [hsplit, List.foldl_append, List.foldl_append, List.foldl_append,
      List.foldl_cons, List.foldl_nil, processW5OneFile_fault cW _ f hf]

/-- Witness for C8: a batch of one good file, one file whose first line
raises `NameError` during parsing (metadata before any text line), and
one unreadable file; removing either failing file leaves the output
unchanged. -/
theorem c8_failed_file_isolated_witness :
    openOrParseFault (some ["# translation = X"]) = true ∧
    (process ([some ["# text = T", "# sent_id = s1",
          "1\tIl\tl\tu\tx\tf\t0\troot\t_\t_"]] ++
        some ["# translation = X"] :: ([none] : List PyFile))
        (fun tokens i =>
          match isClauseHead tokens (i : Int) clauseHeadRels with
          | .error e => .error e
          | .ok true => .ok (some i)
          | .ok false => .ok none) =
      process ([some ["# text = T", "# sent_id = s1",
          "1\tIl\tl\tu\tx\tf\t0\troot\t_\t_"]] ++ ([none] : List PyFile))
        (fun tokens i =>
          match isClauseHead tokens (i : Int) clauseHeadRels with
          | .error e => .error e
          | .ok true => .ok (some i)
          | .ok false => .ok none) ∧
    processW5 ([some ["# text = T", "# sent_id = s1",
          "1\tIl\tl\tu\tx\tf\t0\troot\t_\t_"]] ++
        some ["# translation = X"] :: ([none] : List PyFile))
        (fun tokens => .ok (tokens.map Token.form)) =
      processW5 ([some ["# text = T", "# sent_id = s1",
          "1\tIl\tl\tu\tx\tf\t0\troot\t_\t_"]] ++ ([none] : List PyFile))
        (fun tokens => .ok (tokens.map Token.form))) :=
  ⟨by decide,
    c8_failed_file_isolated
      (fun tokens i =>
        match isClauseHead tokens (i : Int) clauseHeadRels with
        | .error e => .error e
        | .ok true => .ok (some i)
        | .ok false => .ok none)
      (fun tokens => .ok (tokens.map Token.form))
      [some ["# text = T", "# sent_id = s1", "1\tIl\tl\tu\tx\tf\t0\troot\t_\t_"]]
      [none] (some ["# translation = X"]) (by decide)⟩

/-! ## Claim C6 -/

/-- A token whose head equals its own index never reaches the root. -/
theorem reachesRoot_self_loop {ts : List Token} {p : Nat} {t : Token}
    (hget : ts.get? p = some t) (hself : t.head = t.index)
    (hidx : t.index = (p : Int) + 1) :
    ∀ f, reachesRoot ts f p = false := by
  intro f
  induction f with
  | zero => rfl
  | succ f ih =>
    simp only [reachesRoot, hget]
    have h1 : (t.head == 0) = false := by
      rw [beq_eq_false_iff_ne]
      rw [hself, hidx]
      omega
    have h2 : (t.head - 1).toNat = p := by
      rw [hself, hidx]
      omega
    rw [h1, h2, ih]
    simp

/-- In a well-formed sentence no token is its own governor. -/
theorem no_self_head {ts : List Token} (hwf : wellFormedSentence ts)
    {t : Token} (ht : t ∈ ts) : t.head ≠ t.index := by
  intro hself
  obtain ⟨p, hget⟩ := List.mem_iff_get?.mp ht
  have hp : p < ts.length := List.get?_eq_some.mp hget |>.1
  have hidx := wfs_index hwf p t hget
  have := wfs_reach hwf p hp
  rw [reachesRoot_self_loop hget hself hidx] at this
  exact Bool.false_ne_true this

/-- C6: for a clause-head token of a well-formed sentence with no
`csubj` dependent and exactly one `nsubj` dependent `ssub`,
`findSubjectValues` returns a nominal subject, pre-verbal when the
subject's index is below the head's and post-verbal in every other
case (the remaining case, the subject's index equal to the head's, is
impossible in a well-formed sentence because the subject's head equals
the head's index). -/
theorem c6_nominal_position (observation ssub : Token) (s : List Token)
    (sentenceLookup : List (String × List Token))
    (hlook : lookupSent sentenceLookup observation.sent_id = s)
    (hwf : wellFormedSentence s)
    (_hobs : observation ∈ per_sentence clauseHeadRels propagateRels s)
    (hcs : s.filter (fun t => t.head == observation.index && t.deprel == "csubj") = [])
    (hns : s.filter (fun t => t.head == observation.index && t.deprel == "nsubj") = [ssub]) :
    findSubjectValues observation sentenceLookup =
      some ("nominal",
        if ssub.index < observation.index then "pre-verbal" else "post-verbal") := by
  have hmem : ssub ∈ s.filter
      (fun t => t.head == observation.index && t.deprel == "nsubj") := by
    rw [hns]; exact List.mem_singleton.mpr rfl
  rw [List.mem_filter] at hmem
  obtain ⟨hsub_mem, hpred⟩ := hmem
  have hhead : ssub.head = observation.index :=
    beq_iff_eq.mp ((Bool.and_eq_true ..).mp hpred).1
  have hne : ssub.index ≠ observation.index := by
    intro he
    exact no_self_head hwf hsub_mem (by rw [hhead, he])
  simp only [findSubjectValues, findDependents, hlook, hcs, hns]
  by_cases hlt : ssub.index < observation.index
  · simp [hlt]
  · have hgt : observation.index < ssub.index := by omega
    simp [hlt, hgt]

/-- Witness for C6 at the Scenario A sentence
`[(1, "Il", nsubj, head 2), (2, root, head 0)]`: the root token at
index 2 is a clause head with a single `nsubj` dependent at index 1,
and the result is `("nominal", "pre-verbal")` since `1 < 2`. -/
theorem c6_nominal_position_witness :
    lookupSent [("s1", [mkTok "s1" 1 "nsubj" 2, mkTok "s1" 2 "root" 0])]
      (mkTok "s1" 2 "root" 0).sent_id =
      [mkTok "s1" 1 "nsubj" 2, mkTok "s1" 2 "root" 0] ∧
    wellFormedSentence [mkTok "s1" 1 "nsubj" 2, mkTok "s1" 2 "root" 0] ∧
    mkTok "s1" 2 "root" 0 ∈ per_sentence clauseHeadRels propagateRels
      [mkTok "s1" 1 "nsubj" 2, mkTok "s1" 2 "root" 0] ∧
    findSubjectValues (mkTok "s1" 2 "root" 0)
      [("s1", [mkTok "s1" 1 "nsubj" 2, mkTok "s1" 2 "root" 0])] =
      some ("nominal",
        if (mkTok "s1" 1 "nsubj" 2).index < (mkTok "s1" 2 "root" 0).index then
          "pre-verbal" else "post-verbal") :=
  ⟨by decide, by decide, by decide,
    c6_nominal_position (mkTok "s1" 2 "root" 0) (mkTok "s1" 1 "nsubj" 2)
      [mkTok "s1" 1 "nsubj" 2, mkTok "s1" 2 "root" 0]
      [("s1", [mkTok "s1" 1 "nsubj" 2, mkTok "s1" 2 "root" 0])]
      (by decide) (by decide) (by decide) (by decide) (by decide)⟩

/-! ## Claim C3 -/

theorem mem_childrenOf {s : List Token} {x c : Int} :
    c ∈ childrenOf s x ↔ ∃ t ∈ s, t.head = x ∧ t.index = c := by
  simp only [childrenOf, List.mem_map, List.mem_filter, beq_iff_eq]
  constructor
  · rintro ⟨t, ⟨ht, hh⟩, hi⟩; exact ⟨t, ht, hh, hi⟩
  · rintro ⟨t, ht, hh, hi⟩; exact ⟨t, ⟨ht, hh⟩, hi⟩

theorem childrenOf_subset_idx {s : List Token} {x c : Int}
    (hc : c ∈ childrenOf s x) : c ∈ (s.map Token.index).toFinset := by
  obtain ⟨t, ht, _, hi⟩ := mem_childrenOf.mp hc
  exact List.mem_toFinset.mpr (hi ▸ List.mem_map_of_mem Token.index ht)

/-- What one pass of the inner `for child in children[curr]` loop does:
it appends a duplicate-free list `l` of previously unseen children to
the queue, adds exactly those to the visited set, and afterwards every
child of `curr` is visited. -/
theorem bfsFoldAux_spec (cs : List Int) :
    ∀ (v : Finset Int) (q : List Int),
      ∃ l : List Int,
        cs.foldl (fun vq c => if c ∈ vq.1 then vq else (insert c vq.1, vq.2 ++ [c]))
            (v, q) = (v ∪ l.toFinset, q ++ l) ∧
        l.Nodup ∧
        (∀ c ∈ l, c ∈ cs ∧ c ∉ v) ∧
        (∀ c ∈ cs, c ∈ v ∪ l.toFinset) ∧
        (v ∪ l.toFinset).card = v.card + l.length := by
  induction cs with
  | nil =>
    intro v q
    exact ⟨[], by simp, List.nodup_nil, by simp, by simp, by simp⟩
  | cons c cs ih =>
    intro v q
    rw [List.foldl_cons]
    by_cases hc : c ∈ v
    · rw [if_pos hc]
      obtain ⟨l, heq, hnd, helem, hcover, hcard⟩ := ih v q
      refine ⟨l, heq, hnd, ?_, ?_, hcard⟩
      · exact fun c' hc' => ⟨List.mem_cons_of_mem _ (helem c' hc').1, (helem c' hc').2⟩
      · intro c' hc'
        rcases List.mem_cons.mp hc' with rfl | hc'
        · exact Finset.mem_union_left _ hc
        · exact hcover c' hc'
    · rw [if_neg hc]
      obtain ⟨l, heq, hnd, helem, hcover, hcard⟩ := ih (insert c v) (q ++ [c])
      have hset : insert c v ∪ l.toFinset = v ∪ (c :: l).toFinset := by
        rw [List.toFinset_cons, Finset.insert_union, Finset.union_insert]
      refine ⟨c :: l, ?_, ?_, ?_, ?_, ?_⟩
      · rw [heq, hset, List.append_assoc, List.singleton_append]
      · exact List.nodup_cons.mpr
          ⟨fun hcl => (helem c hcl).2 (Finset.mem_insert_self c v), hnd⟩
      · intro c' hc'
        rcases List.mem_cons.mp hc' with rfl | hc'
        · exact ⟨List.mem_cons_self _ _, hc⟩
        · exact ⟨List.mem_cons_of_mem _ (helem c' hc').1,
            fun hv => (helem c' hc').2 (Finset.mem_insert_of_mem hv)⟩
      · intro c' hc'
        rcases List.mem_cons.mp hc' with rfl | hc'
        · rw [← hset]
          exact Finset.mem_union_left _ (Finset.mem_insert_self _ _)
        · rw [← hset]; exact hcover c' hc'
      · rw [← hset, hcard, Finset.card_insert_of_not_mem hc, List.length_cons]
        omega

/-- The `while queue` loop of `print_clause`: with the stated
invariants and enough fuel it completes, its result contains the
initial visited set, is closed under children edges, and is contained
in every children-closed superset of the initial visited set. -/
theorem bfsAux_spec (s : List Token) :
    ∀ (fuel : Nat) (visited : Finset Int) (queue : List Int),
      (∀ x ∈ queue, x ∈ visited) →
      visited ⊆ (s.map Token.index).toFinset →
      (∀ x ∈ visited, x ∉ queue → ∀ c ∈ childrenOf s x, c ∈ visited) →
      queue.length + ((s.map Token.index).toFinset.card - visited.card) < fuel →
      ∃ res, bfsAux s fuel visited queue = some res ∧
        visited ⊆ res ∧
        (∀ x ∈ res, ∀ c ∈ childrenOf s x, c ∈ res) ∧
        ∀ (P : Int → Prop), (∀ x c, P x → c ∈ childrenOf s x → P c) →
          (∀ x ∈ visited, P x) → ∀ x ∈ res, P x := by
  intro fuel
  induction fuel with
  | zero => intro visited queue _ _ _ hfuel; omega
  | succ f ih =>
    intro visited queue hq hU hclosed hfuel
    cases queue with
    | nil =>
      refine ⟨visited, rfl, Finset.Subset.refl _, ?_, ?_⟩
      · exact fun x hx => hclosed x hx (List.not_mem_nil x)
      · exact fun P _ hv => hv
    | cons curr rest =>
      obtain ⟨l, heq, hnd, helem, hcover, hcard⟩ :=
        bfsFoldAux_spec (childrenOf s curr) visited rest
      have hrun : bfsAux s (f + 1) visited (curr :: rest) =
          bfsAux s f (visited ∪ l.toFinset) (rest ++ l) := by
        show bfsAux s f (bfsFold s curr (visited, rest)).1
            (bfsFold s curr (visited, rest)).2 =
          bfsAux s f (visited ∪ l.toFinset) (rest ++ l)
        rw [bfsFold, heq]
      have hsubU : visited ∪ l.toFinset ⊆ (s.map Token.index).toFinset := by
        intro x hx
        rcases Finset.mem_union.mp hx with hx | hx
        · exact hU hx
        · exact childrenOf_subset_idx (helem x (List.mem_toFinset.mp hx)).1
      have hcardle : visited.card ≤ (s.map Token.index).toFinset.card :=
        Finset.card_le_card hU
      have hcardle2 : visited.card + l.length ≤ (s.map Token.index).toFinset.card := by
        rw [← hcard]; exact Finset.card_le_card hsubU
      have hq2 : ∀ x ∈ rest ++ l, x ∈ visited ∪ l.toFinset := by
        intro x hx
        rcases List.mem_append.mp hx with hx | hx
        · exact Finset.mem_union_left _ (hq x (List.mem_cons_of_mem _ hx))
        · exact Finset.mem_union_right _ (List.mem_toFinset.mpr hx)
      have hclosed2 : ∀ x ∈ visited ∪ l.toFinset, x ∉ rest ++ l →
          ∀ c ∈ childrenOf s x, c ∈ visited ∪ l.toFinset := by
        intro x hx hxq c hc
        rcases Finset.mem_union.mp hx with hx | hx
        · by_cases hxc : x = curr
          · exact hcover c (hxc ▸ hc)
          · have hxrest : x ∉ curr :: rest := by
              intro hmem
              rcases List.mem_cons.mp hmem with h | h
              · exact hxc h
              · exact hxq (List.mem_append_left _ h)
            exact Finset.mem_union_left _ (hclosed x hx hxrest c hc)
        · exact absurd (List.mem_append_right _ (List.mem_toFinset.mp hx)) hxq
      have hfuel2 : (rest ++ l).length +
          ((s.map Token.index).toFinset.card - (visited ∪ l.toFinset).card) < f := by
        rw [List.length_append, hcard]
        simp only [List.length_cons] at hfuel
        omega
      obtain ⟨res, hres, hsub, hcl, hP⟩ := ih (visited ∪ l.toFinset) (rest ++ l)
        hq2 hsubU hclosed2 hfuel2
      refine ⟨res, by rw [hrun, hres], ?_, hcl, ?_⟩
      · exact fun x hx => hsub (Finset.mem_union_left _ hx)
      · intro P hPc hPv x hx
        refine hP P hPc ?_ x hx
        intro y hy
        rcases Finset.mem_union.mp hy with hy | hy
        · exact hPv y hy
        · exact hPc curr y (hPv curr (hq curr (List.mem_cons_self _ _)))
            (helem y (List.mem_toFinset.mp hy)).1

/-- C3: when `startIndex` occurs among the sentence's token indices,
the subtree extraction of `print_clause` succeeds, its index set
contains `startIndex`, equals exactly the set of indices reachable from
`startIndex` via zero or more reverse head-pointer (dependent) edges,
and is the least set containing `startIndex` that is closed under
adding a token whose head is already in the set. -/
theorem c3_subtree_closure (s : List Token) (startIndex : Int)
    (hstart : startIndex ∈ s.map Token.index) :
    ∃ res, subtreeIndices s startIndex = some res ∧
      startIndex ∈ res ∧
      (∀ x, x ∈ res ↔ Reaches s startIndex x) ∧
      ∀ (S : Finset Int), startIndex ∈ S →
        (∀ t ∈ s, t.head ∈ S → t.index ∈ S) → res ⊆ S := by
  have hstartU : startIndex ∈ (s.map Token.index).toFinset :=
    List.mem_toFinset.mpr hstart
  have hcardU : (s.map Token.index).toFinset.card ≤ s.length := by
    calc (s.map Token.index).toFinset.card ≤ (s.map Token.index).length :=
          (s.map Token.index).toFinset_card_le
      _ = s.length := List.length_map s Token.index
  have hcardpos : 1 ≤ (s.map Token.index).toFinset.card :=
    Finset.card_pos.mpr ⟨startIndex, hstartU⟩
  obtain ⟨res, hres, hsub, hcl, hP⟩ := bfsAux_spec s (s.length + 2) {startIndex}
    [startIndex]
    (by intro x hx; rw [List.mem_singleton.mp hx]; exact Finset.mem_singleton_self _)
    (by intro x hx; rw [Finset.mem_singleton.mp hx]; exact hstartU)
    (by
      intro x hx hnq
      exact absurd (Finset.mem_singleton.mp hx ▸ List.mem_singleton_self _) hnq)
    (by simp only [List.length_singleton, Finset.card_singleton]; omega)
  refine ⟨res, ?_, hsub (Finset.mem_singleton_self _), ?_, ?_⟩
  · rw [subtreeIndices, if_pos hstart]; exact hres
  · intro x
    constructor
    · refine hP (Reaches s startIndex) ?_ ?_ x
      · intro y c hy hc
        obtain ⟨t, ht, hh, hi⟩ := mem_childrenOf.mp hc
        exact hi ▸ Reaches.step hy ht hh
      · intro y hy
        rw [Finset.mem_singleton.mp hy]
        exact Reaches.refl
    · intro hx
      induction hx with
      | refl => exact hsub (Finset.mem_singleton_self _)
      | step hr ht hh ihx =>
        exact hcl _ ihx _ (mem_childrenOf.mpr ⟨_, ht, hh, rfl⟩)
  · intro S hS hSclosed
    intro x hx
    refine hP (fun y => y ∈ S) ?_ ?_ x hx
    · intro y c hy hc
      obtain ⟨t, ht, hh, hi⟩ := mem_childrenOf.mp hc
      exact hi ▸ hSclosed t ht (hh ▸ hy)
    · intro y hy
      rw [Finset.mem_singleton.mp hy]
      exact hS

/-- Witness for C3 at a four-token sentence with head 3 governing 2 and
4, and 2 governing 1: extraction from start index 2 succeeds. -/
theorem c3_subtree_closure_witness :
    ((2 : Int) ∈ [mkTok "s" 1 "det" 2, mkTok "s" 2 "nsubj" 3,
      mkTok "s" 3 "root" 0, mkTok "s" 4 "obj" 3].map Token.index) ∧
    ∃ res, subtreeIndices [mkTok "s" 1 "det" 2, mkTok "s" 2 "nsubj" 3,
        mkTok "s" 3 "root" 0, mkTok "s" 4 "obj" 3] 2 = some res ∧
      (2 : Int) ∈ res ∧
      (∀ x, x ∈ res ↔ Reaches [mkTok "s" 1 "det" 2, mkTok "s" 2 "nsubj" 3,
        mkTok "s" 3 "root" 0, mkTok "s" 4 "obj" 3] 2 x) ∧
      ∀ (S : Finset Int), (2 : Int) ∈ S →
        (∀ t ∈ [mkTok "s" 1 "det" 2, mkTok "s" 2 "nsubj" 3,
          mkTok "s" 3 "root" 0, mkTok "s" 4 "obj" 3], t.head ∈ S → t.index ∈ S) →
        res ⊆ S :=
  ⟨by decide,
    c3_subtree_closure [mkTok "s" 1 "det" 2, mkTok "s" 2 "nsubj" 3,
      mkTok "s" 3 "root" 0, mkTok "s" 4 "obj" 3] 2 (by decide)⟩

/-! ## Claim C1: lemmas about the fixed-point keep set -/

theorem mem_stepKeep {g : List Token} {prop : List String} {keep : Finset Int}
    {x : Int} :
    x ∈ stepKeep g prop keep ↔
      x ∈ keep ∨ ∃ t ∈ g, t.deprel ∈ prop ∧ t.head ∈ keep ∧ t.index = x := by
  simp only [stepKeep, Finset.mem_union, List.mem_toFinset, List.mem_map,
    List.mem_filter, Bool.and_eq_true, decide_eq_true_eq]
  constructor
  · rintro (h | ⟨t, ⟨ht, hd, hh⟩, hi⟩)
    · exact Or.inl h
    · exact Or.inr ⟨t, ht, hd, hh, hi⟩
  · rintro (h | ⟨t, ht, hd, hh, hi⟩)
    · exact Or.inl h
    · exact Or.inr ⟨t, ⟨ht, hd, hh⟩, hi⟩

theorem subset_stepKeep {g : List Token} {prop : List String}
    {keep : Finset Int} : keep ⊆ stepKeep g prop keep :=
  Finset.subset_union_left

theorem stepKeep_subset {g : List Token} {prop : List String}
    {keep : Finset Int} (hk : keep ⊆ idxSet g) :
    stepKeep g prop keep ⊆ idxSet g := by
  intro x hx
  rcases mem_stepKeep.mp hx with hx | ⟨t, ht, _, _, hi⟩
  · exact hk hx
  · exact List.mem_toFinset.mpr (hi ▸ List.mem_map_of_mem Token.index ht)

theorem keepInit_subset {g : List Token} {cH : List String} :
    keepInit g cH ⊆ idxSet g := by
  intro x hx
  obtain ⟨t, ht, hi⟩ := List.mem_map.mp
    (List.mem_toFinset.mp (Finset.mem_of_mem_erase hx))
  exact List.mem_toFinset.mpr
    (hi ▸ List.mem_map_of_mem Token.index (List.mem_of_mem_filter ht))

theorem mem_keepInit {g : List Token} {cH : List String} {x : Int} :
    x ∈ keepInit g cH ↔ x ≠ 0 ∧ ∃ t ∈ g, t.deprel ∈ cH ∧ t.index = x := by
  simp only [keepInit, Finset.mem_erase, List.mem_toFinset, List.mem_map,
    List.mem_filter, decide_eq_true_eq]
  constructor
  · rintro ⟨hne, t, ⟨ht, hd⟩, hi⟩
    exact ⟨hne, t, ht, hd, hi⟩
  · rintro ⟨hne, t, ht, hd, hi⟩
    exact ⟨hne, t, ⟨ht, hd⟩, hi⟩

/-- The loop of `per_sentence` reaches the monotone fixed point before
its fuel runs out. -/
theorem propagateKeep_spec (g : List Token) (prop : List String) :
    ∀ (fuel : Nat) (keep : Finset Int), keep ⊆ idxSet g →
      (idxSet g).card - keep.card < fuel →
      keep ⊆ propagateKeep g prop fuel keep ∧
      propagateKeep g prop fuel keep ⊆ idxSet g ∧
      stepKeep g prop (propagateKeep g prop fuel keep) =
        propagateKeep g prop fuel keep := by
  intro fuel
  induction fuel with
  | zero => intro keep _ hfuel; omega
  | succ f ih =>
    intro keep hsub hfuel
    simp only [propagateKeep]
    by_cases hcard : (stepKeep g prop keep).card = keep.card
    · rw [if_pos hcard]
      have heq : stepKeep g prop keep = keep :=
        (Finset.eq_of_subset_of_card_le subset_stepKeep (le_of_eq hcard)).symm
      exact ⟨Finset.Subset.refl _, hsub, heq⟩
    · rw [if_neg hcard]
      have hsub2 : stepKeep g prop keep ⊆ idxSet g := stepKeep_subset hsub
      have hlt : keep.card < (stepKeep g prop keep).card :=
        lt_of_le_of_ne (Finset.card_le_card subset_stepKeep) (Ne.symm hcard)
      have hle : (stepKeep g prop keep).card ≤ (idxSet g).card :=
        Finset.card_le_card hsub2
      obtain ⟨h1, h2, h3⟩ := ih (stepKeep g prop keep) hsub2 (by omega)
      exact ⟨Finset.Subset.trans subset_stepKeep h1, h2, h3⟩

/-- Transfer of a children-closed predicate along the propagation
loop: anything true of the initial keep set and preserved by one
propagation step is true of everything in the final keep set. -/
theorem propagateKeep_good (g : List Token) (prop : List String)
    (Good : Int → Prop)
    (hstep : ∀ t ∈ g, t.deprel ∈ prop → Good t.head → Good t.index) :
    ∀ (fuel : Nat) (keep : Finset Int), (∀ x ∈ keep, Good x) →
      ∀ x ∈ propagateKeep g prop fuel keep, Good x := by
  intro fuel
  induction fuel with
  | zero => intro keep hkeep x hx; exact hkeep x hx
  | succ f ih =>
    intro keep hkeep x hx
    simp only [propagateKeep] at hx
    by_cases hcard : (stepKeep g prop keep).card = keep.card
    · rw [if_pos hcard] at hx
      exact hkeep x hx
    · rw [if_neg hcard] at hx
      refine ih (stepKeep g prop keep) ?_ x hx
      intro y hy
      rcases mem_stepKeep.mp hy with hy | ⟨t, ht, hd, hh, hi⟩
      · exact hkeep y hy
      · exact hi ▸ hstep t ht hd (hkeep t.head hh)

theorem clauseHeadKeep_subset {g : List Token} {cH prop : List String} :
    clauseHeadKeep g cH prop ⊆ idxSet g :=
  (propagateKeep_spec g prop (g.length + 1) (keepInit g cH) keepInit_subset
    (by
      have : (idxSet g).card ≤ g.length := by
        calc (idxSet g).card ≤ (g.map Token.index).length :=
            (g.map Token.index).toFinset_card_le
          _ = g.length := List.length_map g Token.index
      omega)).2.1

theorem clauseHeadKeep_init {g : List Token} {cH prop : List String} :
    keepInit g cH ⊆ clauseHeadKeep g cH prop :=
  (propagateKeep_spec g prop (g.length + 1) (keepInit g cH) keepInit_subset
    (by
      have : (idxSet g).card ≤ g.length := by
        calc (idxSet g).card ≤ (g.map Token.index).length :=
            (g.map Token.index).toFinset_card_le
          _ = g.length := List.length_map g Token.index
      omega)).1

theorem clauseHeadKeep_fixed (g : List Token) (cH prop : List String) :
    stepKeep g prop (clauseHeadKeep g cH prop) = clauseHeadKeep g cH prop :=
  (propagateKeep_spec g prop (g.length + 1) (keepInit g cH) keepInit_subset
    (by
      have : (idxSet g).card ≤ g.length := by
        calc (idxSet g).card ≤ (g.map Token.index).length :=
            (g.map Token.index).toFinset_card_le
          _ = g.length := List.length_map g Token.index
      omega)).2.2

theorem clauseHeadKeep_good {g : List Token} {cH prop : List String}
    (Good : Int → Prop)
    (hstep : ∀ t ∈ g, t.deprel ∈ prop → Good t.head → Good t.index)
    (hinit : ∀ x ∈ keepInit g cH, Good x) :
    ∀ x ∈ clauseHeadKeep g cH prop, Good x :=
  propagateKeep_good g prop Good hstep (g.length + 1) (keepInit g cH) hinit

/-! ## Claim C1: lemmas about the recursive classifier -/

theorem wfs_pos_of_mem {ts : List Token} (hwf : wellFormedSentence ts)
    {t : Token} (ht : t ∈ ts) :
    ∃ p, ts.get? p = some t ∧ t.index = (p : Int) + 1 := by
  obtain ⟨p, hget⟩ := List.mem_iff_get?.mp ht
  exact ⟨p, hget, wfs_index hwf p t hget⟩

/-- In a well-formed sentence the `index` value determines the
token. -/
theorem wfs_uniq {ts : List Token} (hwf : wellFormedSentence ts)
    {p q : Nat} {t u : Token} (hp : ts.get? p = some t)
    (hq : ts.get? q = some u) (hidx : t.index = u.index) : t = u := by
  have h1 := wfs_index hwf p t hp
  have h2 := wfs_index hwf q u hq
  have hpq : p = q := by omega
  rw [hpq, hq] at hp
  exact (Option.some_inj.mp hp).symm

theorem isClauseHeadF_succ_base {ts : List Token} {p : Nat} {t : Token}
    (cH : List String) (f : Nat) (hget : ts.get? p = some t)
    (hc : t.deprel ∈ cH) :
    isClauseHeadF (f + 1) ts (p : Int) cH = .ok true := by
  simp only [isClauseHeadF, pyGet_natCast, hget]
  rw [if_pos hc]

theorem isClauseHeadF_succ_prop {ts : List Token} {p : Nat} {t : Token}
    (cH : List String) (f : Nat) (hget : ts.get? p = some t)
    (hsid : ∀ a ∈ ts, ∀ b ∈ ts, a.sent_id = b.sent_id)
    (hnotcH : t.deprel ∉ cH)
    (hprop : t.deprel = "conj" ∨ t.deprel = "parataxis") :
    isClauseHeadF (f + 1) ts (p : Int) cH =
      isClauseHeadF f ts (t.head - 1) cH := by
  simp only [isClauseHeadF, pyGet_natCast, hget]
  rw [if_neg hnotcH, if_pos hprop, filter_sid_eq_self hsid (List.get?_mem hget)]

theorem isClauseHeadF_succ_other {ts : List Token} {p : Nat} {t : Token}
    (cH : List String) (f : Nat) (hget : ts.get? p = some t)
    (hnotcH : t.deprel ∉ cH)
    (hnotprop : ¬(t.deprel = "conj" ∨ t.deprel = "parataxis")) :
    isClauseHeadF (f + 1) ts (p : Int) cH = .ok false := by
  simp only [isClauseHeadF, pyGet_natCast, hget]
  rw [if_neg hnotcH, if_neg hnotprop]

/-- Totality under the invariant: when no `conj`/`parataxis` token has
head `0`, the classifier finishes within the fuel that bounds the head
chain, returning a boolean. -/
theorem isClauseHeadF_total {ts : List Token} (hwf : wellFormedSentence ts)
    (hnc : ∀ u ∈ ts, u.deprel = "conj" ∨ u.deprel = "parataxis" → u.head ≠ 0) :
    ∀ (f p : Nat) (t : Token), ts.get? p = some t →
      reachesRoot ts f p = true →
      ∃ b, isClauseHeadF f ts (p : Int) clauseHeadRels = .ok b := by
  intro f
  induction f with
  | zero => intro p t _ hr; simp [reachesRoot] at hr
  | succ f ih =>
    intro p t hget hr
    by_cases hcH : t.deprel ∈ clauseHeadRels
    · exact ⟨true, isClauseHeadF_succ_base _ f hget hcH⟩
    · by_cases hprop : t.deprel = "conj" ∨ t.deprel = "parataxis"
      · have htmem : t ∈ ts := List.get?_mem hget
        have hne : t.head ≠ 0 := hnc t htmem hprop
        simp only [reachesRoot, hget] at hr
        rw [beq_eq_false_iff_ne.mpr hne, Bool.false_or, Bool.and_eq_true,
          Bool.and_eq_true, decide_eq_true_eq, decide_eq_true_eq] at hr
        obtain ⟨⟨h1, h2⟩, h3⟩ := hr
        have hq : (t.head - 1).toNat < ts.length := by omega
        obtain ⟨b, hb⟩ := ih (t.head - 1).toNat (ts.get ⟨_, hq⟩)
          (List.get?_eq_get hq) h3
        refine ⟨b, ?_⟩
        rw [isClauseHeadF_succ_prop _ f hget (wfs_sid hwf) hcH hprop]
        have hcast : (((t.head - 1).toNat : Nat) : Int) = t.head - 1 := by omega
        rw [← hcast]
        exact hb
      · exact ⟨false, isClauseHeadF_succ_other _ f hget hcH hprop⟩

/-- Soundness: whenever the recursive classifier answers `true`, the
token's `deprel` is a clause-head relation or its index is in the fixed
point of the batch filter. -/
theorem isClauseHead_sound {ts : List Token} (hwf : wellFormedSentence ts)
    (hnc : ∀ u ∈ ts, u.deprel = "conj" ∨ u.deprel = "parataxis" → u.head ≠ 0) :
    ∀ (f p : Nat) (t : Token), ts.get? p = some t →
      isClauseHeadF f ts (p : Int) clauseHeadRels = .ok true →
      t.deprel ∈ clauseHeadRels ∨
        t.index ∈ clauseHeadKeep ts clauseHeadRels propagateRels := by
  intro f
  induction f with
  | zero => intro p t _ h; simp [isClauseHeadF] at h
  | succ f ih =>
    intro p t hget h
    by_cases hcH : t.deprel ∈ clauseHeadRels
    · exact Or.inl hcH
    · right
      by_cases hprop : t.deprel = "conj" ∨ t.deprel = "parataxis"
      · have htmem : t ∈ ts := List.get?_mem hget
        have hne : t.head ≠ 0 := hnc t htmem hprop
        have hp : p < ts.length := (List.get?_eq_some.mp hget).1
        have hr := wfs_reach hwf p hp
        obtain ⟨n, hn⟩ : ∃ n, ts.length = n + 1 := ⟨ts.length - 1, by omega⟩
        rw [hn] at hr
        simp only [reachesRoot, hget] at hr
        rw [beq_eq_false_iff_ne.mpr hne, Bool.false_or, Bool.and_eq_true,
          Bool.and_eq_true, decide_eq_true_eq, decide_eq_true_eq] at hr
        obtain ⟨⟨h1, h2⟩, _⟩ := hr
        have hq : (t.head - 1).toNat < ts.length := by omega
        have hu : ts.get? (t.head - 1).toNat = some (ts.get ⟨_, hq⟩) :=
          List.get?_eq_get hq
        rw [isClauseHeadF_succ_prop _ f hget (wfs_sid hwf) hcH hprop] at h
        have hcast : (((t.head - 1).toNat : Nat) : Int) = t.head - 1 := by omega
        rw [← hcast] at h
        have hdisj := ih (t.head - 1).toNat (ts.get ⟨_, hq⟩) hu h
        have huidx : (ts.get ⟨_, hq⟩).index = ((t.head - 1).toNat : Int) + 1 :=
          wfs_index hwf _ _ hu
        have hhead_eq : t.head = (ts.get ⟨_, hq⟩).index := by omega
        have hheadK : t.head ∈ clauseHeadKeep ts clauseHeadRels propagateRels := by
          rcases hdisj with hucH | huK
          · refine clauseHeadKeep_init (mem_keepInit.mpr ?_)
            exact ⟨by omega, ts.get ⟨_, hq⟩, List.get?_mem hu, hucH, hhead_eq.symm⟩
          · rw [hhead_eq]; exact huK
        have hpropmem : t.deprel ∈ propagateRels := by
          rcases hprop with h' | h' <;> simp [propagateRels, h']
        rw [← clauseHeadKeep_fixed ts clauseHeadRels propagateRels]
        exact mem_stepKeep.mpr (Or.inr ⟨t, htmem, hpropmem, hheadK, rfl⟩)
      · rw [isClauseHeadF_succ_other _ f hget hcH hprop] at h
        simp at h

/-- Membership in the per-token sense: the index is that of a token
whose classification run returns `true` for some (hence every
sufficiently large) fuel. -/
def GoodAt (ts : List Token) (x : Int) : Prop :=
  x ∈ idxSet ts ∧ ∀ (p : Nat) (t : Token), ts.get? p = some t → t.index = x →
    ∃ f, isClauseHeadF f ts (p : Int) clauseHeadRels = .ok true

/-- Completeness transfer: every index in the fixed point of the batch
filter is classified `true` by the recursive classifier. -/
theorem clauseHeadKeep_all_good {ts : List Token} (hwf : wellFormedSentence ts) :
    ∀ x ∈ clauseHeadKeep ts clauseHeadRels propagateRels, GoodAt ts x := by
  refine clauseHeadKeep_good (GoodAt ts) ?_ ?_
  · rintro t ht hd ⟨hheadIdx, hgood⟩
    refine ⟨List.mem_toFinset.mpr (List.mem_map_of_mem Token.index ht), ?_⟩
    intro p t' hget' hidx'
    obtain ⟨q0, hq0, _⟩ := wfs_pos_of_mem hwf ht
    have ht' : t' = t := wfs_uniq hwf hget' hq0 hidx'
    subst ht'
    obtain ⟨u, hu_mem, hu_idx⟩ := List.mem_map.mp (List.mem_toFinset.mp hheadIdx)
    obtain ⟨q, hq, hqidx⟩ := wfs_pos_of_mem hwf hu_mem
    obtain ⟨f, hf⟩ := hgood q u hq hu_idx
    have hprop : t'.deprel = "conj" ∨ t'.deprel = "parataxis" := by
      simpa [propagateRels] using hd
    have hnotcH : t'.deprel ∉ clauseHeadRels := by
      rcases hprop with h' | h' <;> simp [clauseHeadRels, h']
    refine ⟨f + 1, ?_⟩
    rw [isClauseHeadF_succ_prop _ f hget' (wfs_sid hwf) hnotcH hprop]
    have hcast : t'.head - 1 = ((q : Nat) : Int) := by omega
    rw [hcast]
    exact hf
  · intro x hx
    obtain ⟨hne0, u, hu, hud, hui⟩ := mem_keepInit.mp hx
    refine ⟨List.mem_toFinset.mpr (hui ▸ List.mem_map_of_mem Token.index hu), ?_⟩
    intro p t hget hidx
    obtain ⟨q, hq, _⟩ := wfs_pos_of_mem hwf hu
    have ht : t = u := wfs_uniq hwf hget hq (hidx.trans hui.symm)
    exact ⟨1, isClauseHeadF_succ_base _ 0 hget (ht ▸ hud)⟩

theorem uniqueKeysAux_all_seen :
    ∀ (l seen : List String), (∀ x ∈ l, x ∈ seen) → uniqueKeysAux seen l = [] := by
  intro l
  induction l with
  | nil => intro seen _; rfl
  | cons s rest ih =>
    intro seen h
    unfold uniqueKeysAux
    rw [if_pos (h s (List.mem_cons_self s rest))]
    exact ih seen fun x hx => h x (List.mem_cons_of_mem s hx)

/-- On a list of tokens of a single sentence `filterClauseHeads` is
`per_sentence` of the whole list. -/
theorem filterClauseHeads_single {ts : List Token} {cH prop : List String}
    (hsid : ∀ a ∈ ts, ∀ b ∈ ts, a.sent_id = b.sent_id) (hne : ts ≠ []) :
    filterClauseHeads ts cH prop = per_sentence cH prop ts := by
  obtain ⟨t0, rest, rfl⟩ := List.exists_cons_of_ne_nil hne
  unfold filterClauseHeads uniqueKeys
  rw [List.map_cons]
  unfold uniqueKeysAux
  rw [if_neg (List.not_mem_nil t0.sent_id)]
  simp only [List.nil_append]
  rw [uniqueKeysAux_all_seen (rest.map Token.sent_id) [t0.sent_id] ?hseen]
  case hseen =>
    intro x hx
    obtain ⟨u, hu, rfl⟩ := List.mem_map.mp hx
    rw [List.mem_singleton]
    exact hsid u (List.mem_cons_of_mem t0 hu) t0 (List.mem_cons_self t0 rest)
  rw [List.flatMap_cons, List.flatMap_nil, List.append_nil,
    filter_sid_eq_self hsid (List.mem_cons_self t0 rest)]

theorem mem_per_sentence {cH prop : List String} {g : List Token} {t : Token} :
    t ∈ per_sentence cH prop g ↔
      t ∈ g ∧ (t.deprel ∈ cH ∨ t.index ∈ clauseHeadKeep g cH prop) := by
  simp [per_sentence, List.mem_filter]

/-- C1, amended: on a well-formed single-sentence token list in which
no `conj`/`parataxis` token has head `0`, the per-token recursive
predicate `isClauseHead` with the canonical relation set returns `true`
exactly for the tokens kept by the whole-sentence fixed-point filter
`filterClauseHeads` with the same relation set and propagation
relations `{conj, parataxis}`.  (Without the head-`0` proviso the two
disagree: see the counterexample.) -/
theorem c1_amended_equiv (ts : List Token) (p : Nat) (t : Token)
    (hwf : wellFormedSentence ts)
    (hnc : ∀ u ∈ ts, u.deprel = "conj" ∨ u.deprel = "parataxis" → u.head ≠ 0)
    (hget : ts.get? p = some t) :
    (isClauseHead ts (p : Int) clauseHeadRels = .ok true ↔
      t ∈ filterClauseHeads ts clauseHeadRels propagateRels) := by
  have hp : p < ts.length := (List.get?_eq_some.mp hget).1
  have hne : ts ≠ [] := by
    intro h
    rw [h] at hp
    simp at hp
  rw [filterClauseHeads_single (wfs_sid hwf) hne, mem_per_sentence]
  constructor
  · intro h
    exact ⟨List.get?_mem hget, isClauseHead_sound hwf hnc _ p t hget h⟩
  · rintro ⟨htmem, hcH | hK⟩
    · exact isClauseHeadF_succ_base _ ts.length hget hcH
    · obtain ⟨_, hgood⟩ := clauseHeadKeep_all_good hwf t.index hK
      obtain ⟨f, hf⟩ := hgood p t hget rfl
      obtain ⟨b, hb⟩ := isClauseHeadF_total hwf hnc ts.length p t hget
        (wfs_reach hwf p hp)
      have h1 := isClauseHeadF_mono f (max f ts.length) ts (p : Int) _ true
        (le_max_left f ts.length) hf
      have h2 := isClauseHeadF_mono ts.length (max f ts.length) ts (p : Int) _ b
        (le_max_right f ts.length) hb
      rw [h1] at h2
      have hbt : b = true := ((Except.ok.injEq ..).mp h2).symm
      exact isClauseHeadF_mono ts.length (ts.length + 1) ts (p : Int) _ true
        (by omega) (hbt ▸ hb)

/-- Witness for C1 (amended) at the Scenario C sentence
`[(1, root, head 0), (2, conj, head 1)]`, token position 1: the `conj`
token is classified a clause head by propagation, and it is kept by the
filter. -/
theorem c1_amended_equiv_witness :
    wellFormedSentence [mkTok "s" 1 "root" 0, mkTok "s" 2 "conj" 1] ∧
    (∀ u ∈ [mkTok "s" 1 "root" 0, mkTok "s" 2 "conj" 1],
      u.deprel = "conj" ∨ u.deprel = "parataxis" → u.head ≠ 0) ∧
    ([mkTok "s" 1 "root" 0, mkTok "s" 2 "conj" 1].get? 1 =
      some (mkTok "s" 2 "conj" 1)) ∧
    (isClauseHead [mkTok "s" 1 "root" 0, mkTok "s" 2 "conj" 1] (1 : Nat)
        clauseHeadRels = .ok true ↔
      mkTok "s" 2 "conj" 1 ∈ filterClauseHeads
        [mkTok "s" 1 "root" 0, mkTok "s" 2 "conj" 1] clauseHeadRels propagateRels) :=
  ⟨by decide, by decide, by decide,
    c1_amended_equiv [mkTok "s" 1 "root" 0, mkTok "s" 2 "conj" 1] 1
      (mkTok "s" 2 "conj" 1) (by decide) (by decide) (by decide)⟩

/-- C1 as stated fails on the code: the sentence
`[(1, conj, head 0), (2, root, head 0)]` satisfies the acyclic-head
invariant, yet for its first token the recursive predicate returns
`true` (Python's `sentence[-1]` silently reaches the root token) while
the fixed-point filter — whose initial set explicitly discards index
`0`, so propagation never crosses a `head = 0` link — does not keep
it. -/
theorem c1_counterexample :
    wellFormedSentence [mkTok "s" 1 "conj" 0, mkTok "s" 2 "root" 0] ∧
    isClauseHead [mkTok "s" 1 "conj" 0, mkTok "s" 2 "root" 0] 0 clauseHeadRels =
      .ok true ∧
    [mkTok "s" 1 "conj" 0, mkTok "s" 2 "root" 0].get? 0 =
      some (mkTok "s" 1 "conj" 0) ∧
    mkTok "s" 1 "conj" 0 ∉ filterClauseHeads
      [mkTok "s" 1 "conj" 0, mkTok "s" 2 "root" 0] clauseHeadRels propagateRels :=
  ⟨by decide, by decide, by decide, by decide⟩

/-! ## Claim C9

The spec-side reading of metadata inheritance.  `metaLineVal key line`
is the value a metadata comment line of the given kind carries;
`mostRecentText lines` is the value of the most recent `# text =` line;
`mostRecentMeta key lines` is the value of the most recent line of kind
`key` *after* the most recent `# text =` line — the `# text =` line
re-creates the `currentToken` dictionary, discarding everything seen
before it, which is what the counterexample below exhibits and what the
amended claim states. -/

def metaLineVal (key : String) (line : String) : Option String :=
  if pyStartswith line ("# " ++ key ++ " =") then some (metaValue line) else none

def sinceLastText (lines : List String) : List String :=
  lines.reverse.takeWhile fun l => !(pyStartswith l "# text =")

def mostRecentMeta (key : String) (lines : List String) : Option String :=
  ((sinceLastText lines).filterMap (metaLineVal key)).head?

def mostRecentText (lines : List String) : Option String :=
  (lines.reverse.filterMap (metaLineVal "text")).head?

/-- C9 as stated fails on the code: in the line sequence below, the
most recently seen translation metadata before the annotation line has
value `TR`, yet the produced token carries `translation = none` — the
second `# text =` line re-created the metadata dictionary and dropped
the translation, so inheritance is *not* independent of the relative
order of the metadata lines. -/
theorem c9_counterexample :
    buildTokenList ["# text = T0", "# translation = TR", "# text = T",
        "# sent_id = s1", "1\tIl\tl\tu\tx\tf\t0\troot\t_\t_"] =
      .ok [⟨"s1", 1, "Il", "l", "u", "x", "f", 0, "root", "_", "_", "T",
        none, none, none⟩] ∧
    (["# text = T0", "# translation = TR", "# text = T",
        "# sent_id = s1"].reverse.filterMap (metaLineVal "translation")).head? =
      some "TR" :=
  ⟨by decide, by decide⟩

theorem startswith_excl {l p q : String} (hp : pyStartswith l p = true)
    (h1 : ¬(p.toList <+: q.toList)) (h2 : ¬(q.toList <+: p.toList)) :
    pyStartswith l q = false := by
  rw [pyStartswith] at hp ⊢
  rw [Bool.eq_false_iff]
  intro hq
  rcases List.prefix_or_prefix_of_prefix
    (List.isPrefixOf_iff_prefix.mp hp) (List.isPrefixOf_iff_prefix.mp hq) with h | h
  · exact h1 h
  · exact h2 h

theorem digitStart_not_hash {l : String} (pre : String) (hd : digitStart l = true)
    (hpre : pre.toList.head? = some '#') : pyStartswith l pre = false := by
  rw [digitStart] at hd
  rw [pyStartswith]
  cases hl : l.toList with
  | nil => rw [hl] at hd; simp at hd
  | cons c rest =>
    rw [hl] at hd
    cases hp : pre.toList with
    | nil => rw [hp] at hpre; simp at hpre
    | cons d rest2 =>
      rw [hp] at hpre
      have hdq : d = '#' := by
        simpa using hpre
      rw [List.isPrefixOf]
      rw [Bool.eq_false_iff]
      intro hqq
      rw [Bool.and_eq_true] at hqq
      have : d = c := beq_iff_eq.mp hqq.1
      rw [hdq] at this
      rw [← this] at hd
      simp at hd

/-- Appending a `# text =` line: the most recent text value becomes
this line's value and the since-reset window empties. -/
theorem window_text {c : List String} {l : String}
    (hl : pyStartswith l "# text =" = true) :
    mostRecentText (c ++ [l]) = some (metaValue l) ∧
    sinceLastText (c ++ [l]) = [] := by
  constructor
  · rw [mostRecentText, List.reverse_append]
    simp only [List.reverse_singleton, List.singleton_append]
    rw [List.filterMap_cons]
    have : metaLineVal "text" l = some (metaValue l) := by
      rw [metaLineVal]
      rw [show ("# " ++ "text" ++ " =") = "# text =" from rfl, if_pos hl]
    rw [this]
    rfl
  · rw [sinceLastText, List.reverse_append]
    simp only [List.reverse_singleton, List.singleton_append]
    rw [List.takeWhile_cons]
    rw [hl]
    rfl

/-- Appending a non-text line: the most recent text value is unchanged
and the since-reset window grows by the line. -/
theorem window_nontext {c : List String} {l : String}
    (hl : pyStartswith l "# text =" = false) :
    mostRecentText (c ++ [l]) = mostRecentText c ∧
    sinceLastText (c ++ [l]) = l :: sinceLastText c := by
  constructor
  · rw [mostRecentText, mostRecentText, List.reverse_append]
    simp only [List.reverse_singleton, List.singleton_append]
    rw [List.filterMap_cons]
    have : metaLineVal "text" l = none := by
      rw [metaLineVal]
      rw [show ("# " ++ "text" ++ " =") = "# text =" from rfl, if_neg (by simp [hl])]
    rw [this]
  · rw [sinceLastText, sinceLastText, List.reverse_append]
    simp only [List.reverse_singleton, List.singleton_append]
    rw [List.takeWhile_cons, hl]
    rfl

/-- Appending a non-text line that is not of kind `key` leaves
`mostRecentMeta key` unchanged. -/
theorem window_meta_other {c : List String} {l key : String}
    (hl : pyStartswith l "# text =" = false)
    (hk : metaLineVal key l = none) :
    mostRecentMeta key (c ++ [l]) = mostRecentMeta key c := by
  rw [mostRecentMeta, mostRecentMeta, (window_nontext hl).2, List.filterMap_cons, hk]

/-- Appending a non-text line of kind `key` makes its value the most
recent for `key`. -/
theorem window_meta_same {c : List String} {l key v : String}
    (hl : pyStartswith l "# text =" = false)
    (hk : metaLineVal key l = some v) :
    mostRecentMeta key (c ++ [l]) = some v := by
  rw [mostRecentMeta, (window_nontext hl).2, List.filterMap_cons, hk]
  rfl

/-- After a reset every non-text metadata kind reads `none`. -/
theorem window_meta_empty {c : List String} {key : String}
    (h : sinceLastText c = []) : mostRecentMeta key c = none := by
  rw [mostRecentMeta, h]
  rfl

theorem bool_false {b : Bool} (h : ¬(b = true)) : b = false := by
  cases b
  · rfl
  · exact absurd rfl h

theorem metaLineVal_pos {line : String} (key pre : String)
    (hkey : "# " ++ key ++ " =" = pre) (h : pyStartswith line pre = true) :
    metaLineVal key line = some (metaValue line) := by
  rw [metaLineVal, hkey, if_pos h]

theorem metaLineVal_neg {line : String} (key pre : String)
    (hkey : "# " ++ key ++ " =" = pre) (h : pyStartswith line pre = false) :
    metaLineVal key line = none := by
  rw [metaLineVal, hkey, if_neg (by simp [h])]

theorem setKey_meta (ctx : BuildCtx) (kv : String × String) :
    (setKey ctx kv).text = ctx.text ∧
    (setKey ctx kv).translation = ctx.translation ∧
    (setKey ctx kv).translation_en = ctx.translation_en ∧
    (setKey ctx kv).title = ctx.title ∧
    (setKey ctx kv).sent_id = ctx.sent_id := by
  unfold setKey
  split <;> exact ⟨rfl, rfl, rfl, rfl, rfl⟩

/-- `dict.update` with annotation keys leaves the metadata keys
untouched. -/
theorem foldl_setKey_meta (pairs : List (String × String)) :
    ∀ ctx : BuildCtx,
      (pairs.foldl setKey ctx).text = ctx.text ∧
      (pairs.foldl setKey ctx).translation = ctx.translation ∧
      (pairs.foldl setKey ctx).translation_en = ctx.translation_en ∧
      (pairs.foldl setKey ctx).title = ctx.title ∧
      (pairs.foldl setKey ctx).sent_id = ctx.sent_id := by
  induction pairs with
  | nil => intro ctx; exact ⟨rfl, rfl, rfl, rfl, rfl⟩
  | cons kv rest ih =>
    intro ctx
    rw [List.foldl_cons]
    obtain ⟨h1, h2, h3, h4, h5⟩ := ih (setKey ctx kv)
    obtain ⟨g1, g2, g3, g4, g5⟩ := setKey_meta ctx kv
    exact ⟨h1.trans g1, h2.trans g2, h3.trans g3, h4.trans g4, h5.trans g5⟩

/-- Inversion of `Token(**currentToken)`: the constructed token's
metadata fields are exactly the dictionary's. -/
theorem mkToken_fields {ctx : BuildCtx} {t : Token} (h : mkToken ctx = .ok t) :
    ctx.text = some t.text ∧ ctx.translation = t.translation ∧
    ctx.translation_en = t.translation_en ∧ ctx.title = t.title ∧
    ctx.sent_id = some t.sent_id := by
  unfold mkToken at h
  split at h
  · split at h
    · injection h with h2
      subst h2
      exact ⟨by assumption, rfl, rfl, rfl, by assumption⟩
    · exact absurd h (by simp)
  · exact absurd h (by simp)

/-- The relation between the `currentToken` dictionary state and the
lines consumed so far: absent before any `# text =` line; otherwise
each metadata key holds the most recent value of its kind, the
non-text kinds counting only lines after the most recent reset. -/
def StInv (consumed : List String) : Option BuildCtx → Prop
  | none => mostRecentText consumed = none
  | some ctx =>
      ctx.text = mostRecentText consumed ∧
      ctx.translation = mostRecentMeta "translation" consumed ∧
      ctx.translation_en = mostRecentMeta "translation_en" consumed ∧
      ctx.title = mostRecentMeta "newdoc id" consumed ∧
      ctx.sent_id = mostRecentMeta "sent_id" consumed

/-- One line preserves the state invariant, and an emitted token
carries the metadata of the consumed prefix. -/
theorem buildStep_inv {consumed : List String} {st st2 : Option BuildCtx}
    {line : String} {emitted : Option Token}
    (hinv : StInv consumed st)
    (hstep : buildStep st line = .ok (st2, emitted)) :
    StInv (consumed ++ [line]) st2 ∧
    ∀ t, emitted = some t →
      mostRecentText consumed = some t.text ∧
      t.translation = mostRecentMeta "translation" consumed ∧
      t.translation_en = mostRecentMeta "translation_en" consumed ∧
      t.title = mostRecentMeta "newdoc id" consumed ∧
      mostRecentMeta "sent_id" consumed = some t.sent_id := by
  unfold buildStep at hstep
  by_cases h1 : pyStartswith line "# text =" = true
  · rw [if_pos h1] at hstep
    injection hstep with h
    injection h with h_st h_em
    subst h_st
    subst h_em
    refine ⟨?_, fun t ht => absurd ht (by simp)⟩
    simp only [StInv]
    exact ⟨(window_text h1).1.symm,
      (window_meta_empty (window_text h1).2).symm,
      (window_meta_empty (window_text h1).2).symm,
      (window_meta_empty (window_text h1).2).symm,
      (window_meta_empty (window_text h1).2).symm⟩
  · rw [if_neg h1] at hstep
    have h1f := bool_false h1
    by_cases h2 : pyStartswith line "# translation =" = true
    · rw [if_pos h2] at hstep
      cases st with
      | none => exact absurd hstep (by simp)
      | some ctx =>
        injection hstep with h
        injection h with h_st h_em
        subst h_st
        subst h_em
        simp only [StInv] at hinv
        obtain ⟨i1, i2, i3, i4, i5⟩ := hinv
        refine ⟨?_, fun t ht => absurd ht (by simp)⟩
        simp only [StInv]
        refine ⟨?_, ?_, ?_, ?_, ?_⟩
        · show ctx.text = mostRecentText (consumed ++ [line])
          rw [(window_nontext h1f).1]; exact i1
        · exact (window_meta_same h1f (metaLineVal_pos "translation" _ rfl h2)).symm
        · show ctx.translation_en = mostRecentMeta "translation_en" (consumed ++ [line])
          rw [window_meta_other h1f (metaLineVal_neg "translation_en" _ rfl
            (startswith_excl h2 (by decide) (by decide)))]
          exact i3
        · show ctx.title = mostRecentMeta "newdoc id" (consumed ++ [line])
          rw [window_meta_other h1f (metaLineVal_neg "newdoc id" _ rfl
            (startswith_excl h2 (by decide) (by decide)))]
          exact i4
        · show ctx.sent_id = mostRecentMeta "sent_id" (consumed ++ [line])
          rw [window_meta_other h1f (metaLineVal_neg "sent_id" _ rfl
            (startswith_excl h2 (by decide) (by decide)))]
          exact i5
    · rw [if_neg h2] at hstep
      have h2f := bool_false h2
      by_cases h3 : pyStartswith line "# translation_en =" = true
      · rw [if_pos h3] at hstep
        cases st with
        | none => exact absurd hstep (by simp)
        | some ctx =>
          injection hstep with h
          injection h with h_st h_em
          subst h_st
          subst h_em
          simp only [StInv] at hinv
          obtain ⟨i1, i2, i3, i4, i5⟩ := hinv
          refine ⟨?_, fun t ht => absurd ht (by simp)⟩
          simp only [StInv]
          refine ⟨?_, ?_, ?_, ?_, ?_⟩
          · show ctx.text = mostRecentText (consumed ++ [line])
            rw [(window_nontext h1f).1]; exact i1
          · show ctx.translation = mostRecentMeta "translation" (consumed ++ [line])
            rw [window_meta_other h1f (metaLineVal_neg "translation" _ rfl h2f)]
            exact i2
          · exact (window_meta_same h1f
              (metaLineVal_pos "translation_en" _ rfl h3)).symm
          · show ctx.title = mostRecentMeta "newdoc id" (consumed ++ [line])
            rw [window_meta_other h1f (metaLineVal_neg "newdoc id" _ rfl
              (startswith_excl h3 (by decide) (by decide)))]
            exact i4
          · show ctx.sent_id = mostRecentMeta "sent_id" (consumed ++ [line])
            rw [window_meta_other h1f (metaLineVal_neg "sent_id" _ rfl
              (startswith_excl h3 (by decide) (by decide)))]
            exact i5
      · rw [if_neg h3] at hstep
        have h3f := bool_false h3
        by_cases h4 : pyStartswith line "# newdoc id =" = true
        · rw [if_pos h4] at hstep
          cases st with
          | none => exact absurd hstep (by simp)
          | some ctx =>
            injection hstep with h
            injection h with h_st h_em
            subst h_st
            subst h_em
            simp only [StInv] at hinv
            obtain ⟨i1, i2, i3, i4, i5⟩ := hinv
            refine ⟨?_, fun t ht => absurd ht (by simp)⟩
            simp only [StInv]
            refine ⟨?_, ?_, ?_, ?_, ?_⟩
            · show ctx.text = mostRecentText (consumed ++ [line])
              rw [(window_nontext h1f).1]; exact i1
            · show ctx.translation = mostRecentMeta "translation" (consumed ++ [line])
              rw [window_meta_other h1f (metaLineVal_neg "translation" _ rfl h2f)]
              exact i2
            · show ctx.translation_en =
                mostRecentMeta "translation_en" (consumed ++ [line])
              rw [window_meta_other h1f
                (metaLineVal_neg "translation_en" _ rfl h3f)]
              exact i3
            · exact (window_meta_same h1f
                (metaLineVal_pos "newdoc id" _ rfl h4)).symm
            · show ctx.sent_id = mostRecentMeta "sent_id" (consumed ++ [line])
              rw [window_meta_other h1f (metaLineVal_neg "sent_id" _ rfl
                (startswith_excl h4 (by decide) (by decide)))]
              exact i5
        · rw [if_neg h4] at hstep
          have h4f := bool_false h4
          by_cases h5 : pyStartswith line "# sent_id =" = true
          · rw [if_pos h5] at hstep
            cases st with
            | none => exact absurd hstep (by simp)
            | some ctx =>
              injection hstep with h
              injection h with h_st h_em
              subst h_st
              subst h_em
              simp only [StInv] at hinv
              obtain ⟨i1, i2, i3, i4, i5⟩ := hinv
              refine ⟨?_, fun t ht => absurd ht (by simp)⟩
              simp only [StInv]
              refine ⟨?_, ?_, ?_, ?_, ?_⟩
              · show ctx.text = mostRecentText (consumed ++ [line])
                rw [(window_nontext h1f).1]; exact i1
              · show ctx.translation =
                  mostRecentMeta "translation" (consumed ++ [line])
                rw [window_meta_other h1f
                  (metaLineVal_neg "translation" _ rfl h2f)]
                exact i2
              · show ctx.translation_en =
                  mostRecentMeta "translation_en" (consumed ++ [line])
                rw [window_meta_other h1f
                  (metaLineVal_neg "translation_en" _ rfl h3f)]
                exact i3
              · show ctx.title = mostRecentMeta "newdoc id" (consumed ++ [line])
                rw [window_meta_other h1f
                  (metaLineVal_neg "newdoc id" _ rfl h4f)]
                exact i4
              · exact (window_meta_same h1f
                  (metaLineVal_pos "sent_id" _ rfl h5)).symm
          · rw [if_neg h5] at hstep
            have h5f := bool_false h5
            by_cases h6 : digitStart line = true
            · rw [if_pos h6] at hstep
              cases st with
              | none => exact absurd hstep (by simp)
              | some ctx =>
                dsimp only at hstep
                cases hmk : mkToken
                    ((annotation_keys.zip (splitTabRuns line)).foldl setKey ctx) with
                | error e => rw [hmk] at hstep; exact absurd hstep (by simp)
                | ok t0 =>
                  rw [hmk] at hstep
                  injection hstep with h
                  injection h with h_st h_em
                  subst h_st
                  subst h_em
                  simp only [StInv] at hinv
                  obtain ⟨i1, i2, i3, i4, i5⟩ := hinv
                  obtain ⟨m1, m2, m3, m4, m5⟩ := foldl_setKey_meta
                    (annotation_keys.zip (splitTabRuns line)) ctx
                  obtain ⟨k1, k2, k3, k4, k5⟩ := mkToken_fields hmk
                  constructor
                  · simp only [StInv]
                    refine ⟨?_, ?_, ?_, ?_, ?_⟩
                    · rw [m1, (window_nontext h1f).1]; exact i1
                    · rw [m2, window_meta_other h1f
                        (metaLineVal_neg "translation" _ rfl h2f)]
                      exact i2
                    · rw [m3, window_meta_other h1f
                        (metaLineVal_neg "translation_en" _ rfl h3f)]
                      exact i3
                    · rw [m4, window_meta_other h1f
                        (metaLineVal_neg "newdoc id" _ rfl h4f)]
                      exact i4
                    · rw [m5, window_meta_other h1f
                        (metaLineVal_neg "sent_id" _ rfl h5f)]
                      exact i5
                  · intro t ht
                    injection ht with ht
                    subst ht
                    refine ⟨?_, ?_, ?_, ?_, ?_⟩
                    · rw [← i1, ← m1, k1]
                    · rw [← k2, m2, i2]
                    · rw [← k3, m3, i3]
                    · rw [← k4, m4, i4]
                    · rw [← i5, ← m5, k5]
            · rw [if_neg h6] at hstep
              injection hstep with h
              injection h with h_st h_em
              subst h_st
              subst h_em
              refine ⟨?_, fun t ht => absurd ht (by simp)⟩
              cases st with
              | none =>
                simp only [StInv] at hinv ⊢
                rw [(window_nontext h1f).1]
                exact hinv
              | some ctx =>
                simp only [StInv] at hinv ⊢
                obtain ⟨i1, i2, i3, i4, i5⟩ := hinv
                refine ⟨?_, ?_, ?_, ?_, ?_⟩
                · rw [(window_nontext h1f).1]; exact i1
                · rw [window_meta_other h1f
                    (metaLineVal_neg "translation" _ rfl h2f)]
                  exact i2
                · rw [window_meta_other h1f
                    (metaLineVal_neg "translation_en" _ rfl h3f)]
                  exact i3
                · rw [window_meta_other h1f
                    (metaLineVal_neg "newdoc id" _ rfl h4f)]
                  exact i4
                · rw [window_meta_other h1f
                    (metaLineVal_neg "sent_id" _ rfl h5f)]
                  exact i5

theorem buildGo_append (xs : List String) :
    ∀ (ys : List String) (st : Option BuildCtx) (acc : List Token),
      buildGo st acc (xs ++ ys) =
        match buildGo st acc xs with
        | .error e => .error e
        | .ok p => buildGo p.1 p.2 ys := by
  induction xs with
  | nil => intro ys st acc; rfl
  | cons l xs ih =>
    intro ys st acc
    rw [List.cons_append]
    have hL : buildGo st acc (l :: (xs ++ ys)) = (match buildStep st l with
      | Except.error e => Except.error e
      | Except.ok (st2, none) => buildGo st2 acc (xs ++ ys)
      | Except.ok (st2, some t) => buildGo st2 (t :: acc) (xs ++ ys)) := rfl
    have hR : buildGo st acc (l :: xs) = (match buildStep st l with
      | Except.error e => Except.error e
      | Except.ok (st2, none) => buildGo st2 acc xs
      | Except.ok (st2, some t) => buildGo st2 (t :: acc) xs) := rfl
    rw [hL, hR]
    cases hbs : buildStep st l with
    | error e => rfl
    | ok r =>
      obtain ⟨st2, em⟩ := r
      cases em with
      | none => exact ih ys st2 acc
      | some t => exact ih ys st2 (t :: acc)

theorem buildGo_inv (lines : List String) :
    ∀ (consumed : List String) (st : Option BuildCtx) (acc : List Token)
      (st2 : Option BuildCtx) (acc2 : List Token),
      StInv consumed st → buildGo st acc lines = .ok (st2, acc2) →
      StInv (consumed ++ lines) st2 := by
  induction lines with
  | nil =>
    intro consumed st acc st2 acc2 hinv h
    injection h with h
    injection h with h_st _
    rw [List.append_nil, ← h_st]
    exact hinv
  | cons l rest ih =>
    intro consumed st acc st2 acc2 hinv h
    rw [show buildGo st acc (l :: rest) =
      (match buildStep st l with
        | Except.error e => Except.error e
        | Except.ok (st2, none) => buildGo st2 acc rest
        | Except.ok (st2, some t) => buildGo st2 (t :: acc) rest) from rfl] at h
    cases hbs : buildStep st l with
    | error e => rw [hbs] at h; exact absurd h (by simp)
    | ok r =>
      obtain ⟨st3, em⟩ := r
      rw [hbs] at h
      have hinv2 := (buildStep_inv hinv hbs).1
      have hassoc : consumed ++ l :: rest = (consumed ++ [l]) ++ rest := by simp
      rw [hassoc]
      cases em with
      | none => exact ih (consumed ++ [l]) st3 acc st2 acc2 hinv2 h
      | some t => exact ih (consumed ++ [l]) st3 (t :: acc) st2 acc2 hinv2 h

/-- An annotation line that succeeds emits a token. -/
theorem buildStep_digit {st st2 : Option BuildCtx} {line : String}
    {emitted : Option Token} (hd : digitStart line = true)
    (hstep : buildStep st line = .ok (st2, emitted)) :
    ∃ t, emitted = some t := by
  unfold buildStep at hstep
  rw [if_neg (by simp [digitStart_not_hash "# text =" hd (by decide)]),
    if_neg (by simp [digitStart_not_hash "# translation =" hd (by decide)]),
    if_neg (by simp [digitStart_not_hash "# translation_en =" hd (by decide)]),
    if_neg (by simp [digitStart_not_hash "# newdoc id =" hd (by decide)]),
    if_neg (by simp [digitStart_not_hash "# sent_id =" hd (by decide)]),
    if_pos hd] at hstep
  cases st with
  | none => exact absurd hstep (by simp)
  | some ctx =>
    dsimp only at hstep
    cases hmk : mkToken ((annotation_keys.zip (splitTabRuns line)).foldl setKey ctx) with
    | error e => rw [hmk] at hstep; exact absurd hstep (by simp)
    | ok t0 =>
      rw [hmk] at hstep
      injection hstep with h
      injection h with _ h_em
      exact ⟨t0, h_em.symm⟩

/-- C9, amended: a Token produced by an annotation line carries, in its
`text`, `translation`, `translation_en`, `title` and `sent_id` fields,
the most recently seen metadata of the corresponding kinds — where for
every kind other than `text` only the metadata lines *after* the most
recent `# text =` line count, because each `# text =` line re-creates
the token-construction context and discards the metadata seen before
it.  (Stated for the token of the last line; `pre` is arbitrary, so
this covers the token of every annotation line of every run.) -/
theorem c9_amended_inheritance (pre : List String) (line : String)
    (toks : List Token) (hdigit : digitStart line = true)
    (hok : buildTokenList (pre ++ [line]) = .ok toks) :
    ∃ t, toks.getLast? = some t ∧
      mostRecentText pre = some t.text ∧
      t.translation = mostRecentMeta "translation" pre ∧
      t.translation_en = mostRecentMeta "translation_en" pre ∧
      t.title = mostRecentMeta "newdoc id" pre ∧
      mostRecentMeta "sent_id" pre = some t.sent_id := by
  unfold buildTokenList at hok
  cases hgo : buildGo none [] (pre ++ [line]) with
  | error e => rw [hgo] at hok; exact absurd hok (by simp)
  | ok p =>
    rw [hgo] at hok
    dsimp only at hok
    rw [buildGo_append pre [line] none []] at hgo
    cases hpre : buildGo none [] pre with
    | error e => rw [hpre] at hgo; exact absurd hgo (by simp)
    | ok q =>
      rw [hpre] at hgo
      obtain ⟨st1, acc1⟩ := q
      dsimp only at hgo
      have hinv : StInv pre st1 := by
        have := buildGo_inv pre [] none [] st1 acc1 (by simp [StInv]; rfl) hpre
        rwa [List.nil_append] at this
      rw [show buildGo st1 acc1 [line] =
        (match buildStep st1 line with
          | Except.error e => Except.error e
          | Except.ok (st2, none) => buildGo st2 acc1 []
          | Except.ok (st2, some t) => buildGo st2 (t :: acc1) []) from rfl] at hgo
      cases hbs : buildStep st1 line with
      | error e => rw [hbs] at hgo; exact absurd hgo (by simp)
      | ok r =>
        obtain ⟨st2, em⟩ := r
        rw [hbs] at hgo
        obtain ⟨t, rfl⟩ := buildStep_digit hdigit hbs
        have hmeta := (buildStep_inv hinv hbs).2 t rfl
        have hp : p = (st2, t :: acc1) := by
          injection hgo with h
          exact h.symm
        subst hp
        injection hok with hok
        refine ⟨t, ?_, hmeta.1, hmeta.2.1, hmeta.2.2.1, hmeta.2.2.2.1,
          hmeta.2.2.2.2⟩
        rw [← hok]
        show ((t :: acc1).reverse).getLast? = some t
        rw [List.reverse_cons, List.getLast?_concat]

/-- Witness for C9 (amended): metadata lines in the order text,
newdoc id, sent_id, translation before the annotation line; the token
carries all of them. -/
theorem c9_amended_inheritance_witness :
    digitStart "1\tIl\tl\tu\tx\tf\t0\troot\t_\t_" = true ∧
    buildTokenList (["# text = T", "# newdoc id = D", "# sent_id = s1",
        "# translation = TR"] ++ ["1\tIl\tl\tu\tx\tf\t0\troot\t_\t_"]) =
      .ok [⟨"s1", 1, "Il", "l", "u", "x", "f", 0, "root", "_", "_", "T",
        some "TR", none, some "D"⟩] ∧
    ∃ t, ([(⟨"s1", 1, "Il", "l", "u", "x", "f", 0, "root", "_", "_", "T",
        some "TR", none, some "D"⟩ : Token)].getLast? = some t ∧
      mostRecentText ["# text = T", "# newdoc id = D", "# sent_id = s1",
        "# translation = TR"] = some t.text ∧
      t.translation = mostRecentMeta "translation" ["# text = T",
        "# newdoc id = D", "# sent_id = s1", "# translation = TR"] ∧
      t.translation_en = mostRecentMeta "translation_en" ["# text = T",
        "# newdoc id = D", "# sent_id = s1", "# translation = TR"] ∧
      t.title = mostRecentMeta "newdoc id" ["# text = T", "# newdoc id = D",
        "# sent_id = s1", "# translation = TR"] ∧
      mostRecentMeta "sent_id" ["# text = T", "# newdoc id = D",
        "# sent_id = s1", "# translation = TR"] = some t.sent_id) :=
  ⟨by decide, by decide,
    c9_amended_inheritance ["# text = T", "# newdoc id = D", "# sent_id = s1",
      "# translation = TR"] "1\tIl\tl\tu\tx\tf\t0\troot\t_\t_"
      [⟨"s1", 1, "Il", "l", "u", "x", "f", 0, "root", "_", "_", "T",
        some "TR", none, some "D"⟩] (by decide) (by decide)⟩

end JFL
